import Mathlib

/-!
Verification of `virttest/utils_test/libvirt.py` (avocado-vt).

Python strings are modelled as lists of characters (`PyStr`), Python
`re.split` on a single literal character as `pySplit`, Python `int()` on a
string as `pyInt?` (returning `none` where `int()` raises `ValueError`;
the call sites never pass whitespace, `+` signs or underscores, so those
accepted forms of `int()` are not modelled), and a raised exception as an
`Option`-valued result (`none` = exception).
-/

abbrev PyStr := List Char

/-- `re.split(sep, s)` for a single literal character `sep`. -/
def pySplit (sep : Char) : PyStr → List PyStr
  | [] => [[]]
  | c :: cs =>
    if c = sep then [] :: pySplit sep cs
    else
      match pySplit sep cs with
      | [] => [[c]]
      | p :: ps => (c :: p) :: ps

/-- Joining pieces with a separator, the inverse image used to describe
comma-separated CPU-list strings. -/
def joinSep (sep : Char) : List PyStr → PyStr
  | [] => []
  | [p] => p
  | p :: ps => p ++ sep :: joinSep sep ps

/-- Numeric value of a decimal digit character. -/
def digitVal (c : Char) : Nat := c.toNat - 48

/-- Value of a string of decimal digits, most significant first. -/
def digitsToNat (cs : PyStr) : Nat := cs.foldl (fun a c => 10 * a + digitVal c) 0

/-- Whether `cs` is a nonempty string of decimal digits. -/
def isDigits (cs : PyStr) : Bool := !cs.isEmpty && cs.all (·.isDigit)

/-- Python `int(s)`: `none` models a raised `ValueError`. -/
def pyInt? : PyStr → Option Int
  | [] => none
  | c :: cs =>
    if c = '-' then
      if isDigits cs then some (-(digitsToNat cs : Int)) else none
    else if isDigits (c :: cs) then some ((digitsToNat (c :: cs) : Int)) else none

/-- Python `list(range(a, b))` over mathematical integers. -/
def pyRange (a b : Int) : List Int :=
  (List.range (b - a).toNat).map (fun i : Nat => a + (i : Int))

/-- Sorted insertion that drops an element already present. -/
def insortNoDup (x : Int) : List Int → List Int
  | [] => [x]
  | y :: ys =>
    if x < y then x :: y :: ys
    else if x = y then y :: ys
    else y :: insortNoDup x ys

/-- Python `sorted(list(set(l)))`: the sorted, duplicate-free list of the
elements of `l`. -/
def sortedSet (l : List Int) : List Int := l.foldr insortNoDup []

/-- The three accumulator lists of `cpus_parser`. -/
structure ParserAcc where
  hyphens : List Int
  carets : List Int
  commas : List Int
deriving DecidableEq

/-- One iteration of the `for cpulist in cpulist_list` loop of `cpus_parser`:
a piece containing `-` contributes a range to `hyphens` (a bad bound raises),
a piece containing `^` contributes to `carets` (a bad number raises), and any
other piece is appended to `commas`, a `ValueError` there being caught and
merely logged. -/
def parsePiece (acc : ParserAcc) (piece : PyStr) : Option ParserAcc :=
  if '-' ∈ piece then
    match pyInt? ((pySplit '-' piece).headD []), pyInt? ((pySplit '-' piece).getLastD []) with
    | some a, some b => some { acc with hyphens := acc.hyphens ++ pyRange a (b + 1) }
    | _, _ => none
  else if '^' ∈ piece then
    match pyInt? ((pySplit '^' piece).getLastD []) with
    | some v => some { acc with carets := acc.carets ++ [v] }
    | _ => none
  else
    match pyInt? piece with
    | some v => some { acc with commas := acc.commas ++ [v] }
    | none => some acc

/-- The whole comma loop of `cpus_parser`. -/
def parsePieces (acc : ParserAcc) : List PyStr → Option ParserAcc
  | [] => some acc
  | p :: ps =>
    match parsePiece acc p with
    | some acc2 => parsePieces acc2 ps
    | none => none

/-- Line 198 of the source:
`sorted(list(set(hyphens).union(set(commas)).difference(set(carets))))`.
The union of the two sets holds the elements of `hyphens ++ commas`, the
difference removes those in `carets`, and `sortedSet` sorts and
deduplicates. -/
def finishSet (acc : ParserAcc) : List Int :=
  sortedSet ((acc.hyphens ++ acc.commas).filter (fun x => x ∉ acc.carets))

/-- `cpus_parser` (the `None`-input path, which returns `None`, is omitted:
the input here is always a string).  In the no-comma caret branch the source
computes `re.split("^", cpulist)[-1]`: `"^"` is an unescaped zero-width regex
anchor, so the last piece of that split is the whole string `cpulist`, whose
`int()` conversion raises `ValueError` (it still contains the caret). -/
def cpusParser (cpulist : PyStr) : Option (List Int) :=
  if ',' ∈ cpulist then
    match parsePieces ⟨[], [], []⟩ (pySplit ',' cpulist) with
    | some acc => some (finishSet acc)
    | none => none
  else if '-' ∈ cpulist then
    match pyInt? ((pySplit '-' cpulist).headD []), pyInt? ((pySplit '-' cpulist).getLastD []) with
    | some a, some b => some (finishSet ⟨pyRange a (b + 1), [], []⟩)
    | _, _ => none
  else if '^' ∈ cpulist then
    match pyInt? cpulist with
    | some v => some (finishSet ⟨[], [v], []⟩)
    | none => none
  else
    match pyInt? cpulist with
    | some v => some [v]
    | none => some (finishSet ⟨[], [], []⟩)

/-! ## `cpus_string_to_affinity_list` -/

/-- Python list assignment `A[i] = c`: a negative index counts from the end,
an index out of range raises `IndexError` (`none`). -/
def pySet (A : List Char) (i : Int) (c : Char) : Option (List Char) :=
  let j := if i < 0 then i + A.length else i
  if 0 ≤ j ∧ j < A.length then some (A.set j.toNat c) else none

/-- `for i in idxs: A[i] = c`, propagating an `IndexError`. -/
def setIndices (A : List Char) (idxs : List Int) (c : Char) : Option (List Char) :=
  match idxs with
  | [] => some A
  | i :: is =>
    match pySet A i c with
    | some A2 => setIndices A2 is c
    | none => none

/-- Python `s.strip("^")`: remove every leading and trailing `^`. -/
def stripCaret (s : PyStr) : PyStr :=
  ((s.dropWhile (· = '^')).reverse.dropWhile (· = '^')).reverse

/-- One iteration of the `for cpus in sub_cpus` loop of
`cpus_string_to_affinity_list`: a range piece marks every index of the range
with `y`, a caret piece resets its index to `-`, any other piece marks its
index with `y`; a `ValueError` from `int()` or an `IndexError` from the
assignment propagates (`none`). -/
def affinityPiece (A : List Char) (piece : PyStr) : Option (List Char) :=
  if '-' ∈ piece then
    match pyInt? ((pySplit '-' piece).headD []), pyInt? ((pySplit '-' piece).getLastD []) with
    | some a, some b => setIndices A (pyRange a (b + 1)) 'y'
    | _, _ => none
  else if '^' ∈ piece then
    match pyInt? (stripCaret piece) with
    | some v => pySet A v '-'
    | none => none
  else
    match pyInt? piece with
    | some v => pySet A v 'y'
    | none => none

/-- The whole piece loop of `cpus_string_to_affinity_list`. -/
def affinityPieces (A : List Char) : List PyStr → Option (List Char)
  | [] => some A
  | p :: ps =>
    match affinityPiece A p with
    | some A2 => affinityPieces A2 ps
    | none => none

/-- `cpus_string_to_affinity_list`.  The initial regex format check of the
source only emits a debug log message and does not affect the result, so it
is not modelled.  The `"r"` branch overwrites every position of the freshly
built `['-'] * num_cpus` list with `y`, i.e. returns `['y'] * num_cpus`. -/
def cpus_string_to_affinity_list (cpus_string : PyStr) (num_cpus : Nat) :
    Option (List Char) :=
  let affinity := List.replicate num_cpus '-'
  if cpus_string = ['r'] then some (List.replicate num_cpus 'y')
  else affinityPieces affinity (pySplit ',' cpus_string)

/-! ## The comma/hyphen/caret term syntax

A CPU-list string in the syntax the spec describes is a comma-separated
list of terms, each term a decimal number `N`, a range `A-B` or an
exclusion `^N`. -/

/-- Fuel-driven digit expansion, structural so that it evaluates inside the
kernel; `natDigits` supplies enough fuel. -/
def natDigitsAux : Nat → Nat → PyStr
  | 0, _ => []
  | fuel + 1, n =>
    if n < 10 then [Nat.digitChar n]
    else natDigitsAux fuel (n / 10) ++ [Nat.digitChar (n % 10)]

/-- The decimal digits of `n`, most significant first. -/
def natDigits (n : Nat) : PyStr := natDigitsAux (n + 1) n

theorem natDigitsAux_congr :
    ∀ n f1 f2, n < f1 → n < f2 → natDigitsAux f1 n = natDigitsAux f2 n := by
  intro n
  induction n using Nat.strong_induction_on with
  | _ n ih =>
    intro f1 f2 h1 h2
    match f1, f2 with
    | g1 + 1, g2 + 1 =>
      by_cases hn : n < 10
      · simp [natDigitsAux, hn]
      · have hd : n / 10 < n := Nat.div_lt_self (by omega) (by omega)
        simp only [natDigitsAux, if_neg hn]
        rw [ih (n / 10) hd (g1) (g2) (by omega) (by omega)]

theorem natDigits_lt {n : Nat} (h : n < 10) : natDigits n = [Nat.digitChar n] := by
  simp [natDigits, natDigitsAux, h]

theorem natDigits_ge {n : Nat} (h : 10 ≤ n) :
    natDigits n = natDigits (n / 10) ++ [Nat.digitChar (n % 10)] := by
  have hd : n / 10 < n := Nat.div_lt_self (by omega) (by omega)
  have h1 : natDigitsAux (n + 1) n = natDigitsAux n (n / 10) ++ [Nat.digitChar (n % 10)] := by
    simp only [natDigitsAux, if_neg (by omega : ¬ n < 10)]
  unfold natDigits
  rw [h1, natDigitsAux_congr (n / 10) n (n / 10 + 1) hd (by omega)]

/-- A term of the comma/hyphen/caret syntax. -/
inductive CpuTerm
  | num (n : Nat)
  | rng (a b : Nat)
  | excl (n : Nat)
deriving DecidableEq

/-- The string a term denotes. -/
def CpuTerm.render : CpuTerm → PyStr
  | .num n => natDigits n
  | .rng a b => natDigits a ++ '-' :: natDigits b
  | .excl n => '^' :: natDigits n

/-- Whether a term is an exclusion `^N`. -/
def CpuTerm.isExcl : CpuTerm → Bool
  | .excl _ => true
  | _ => false

/-- The CPU-list string denoted by a list of terms. -/
def renderTerms (ts : List CpuTerm) : PyStr := joinSep ',' (ts.map CpuTerm.render)

/-- The set of CPUs a term contributes to the union. -/
def CpuTerm.includes : CpuTerm → Finset Int
  | .num n => {(n : Int)}
  | .rng a b => Finset.Icc (a : Int) (b : Int)
  | .excl _ => ∅

/-- The set of CPUs a term excludes. -/
def CpuTerm.excludes : CpuTerm → Finset Int
  | .excl n => {(n : Int)}
  | _ => ∅

/-- The set the claim describes: the union of all range and number terms
minus the set of all excluded numbers. -/
def specSet (ts : List CpuTerm) : Finset Int :=
  (ts.foldr (fun t s => t.includes ∪ s) ∅) \ (ts.foldr (fun t s => t.excludes ∪ s) ∅)

/-- The decimal numbers occurring in a term. -/
def CpuTerm.indices : CpuTerm → List Nat
  | .num n => [n]
  | .rng a b => [a, b]
  | .excl n => [n]

/-- Every decimal number occurring in the rendered string of `ts`. -/
def termIndices (ts : List CpuTerm) : List Nat := ts.flatMap CpuTerm.indices

/-! ## Splitting and joining lemmas -/

theorem pySplit_ne_nil (sep : Char) (s : PyStr) : pySplit sep s ≠ [] := by
  induction s with
  | nil => simp [pySplit]
  | cons c cs ih =>
    by_cases h : c = sep
    · simp [pySplit, h]
    · simp only [pySplit, if_neg h]
      cases hs : pySplit sep cs with
      | nil => simp
      | cons p ps => simp

theorem pySplit_no_sep {sep : Char} {s : PyStr} (h : sep ∉ s) :
    pySplit sep s = [s] := by
  induction s with
  | nil => simp [pySplit]
  | cons c cs ih =>
    have hc : ¬ c = sep := fun hc => h (by simp [hc])
    have hcs : sep ∉ cs := fun hm => h (by simp [hm])
    simp only [pySplit, if_neg hc, ih hcs]

theorem pySplit_sep_cons {sep : Char} {a b : PyStr} (h : sep ∉ a) :
    pySplit sep (a ++ sep :: b) = a :: pySplit sep b := by
  induction a with
  | nil => simp [pySplit]
  | cons c cs ih =>
    have hc : ¬ c = sep := fun hc => h (by simp [hc])
    have hcs : sep ∉ cs := fun hm => h (by simp [hm])
    simp only [List.cons_append, pySplit, if_neg hc]
    rw [show cs.append (sep :: b) = cs ++ sep :: b from rfl, ih hcs]

theorem pySplit_joinSep {sep : Char} {ps : List PyStr} (hne : ps ≠ [])
    (h : ∀ p ∈ ps, sep ∉ p) : pySplit sep (joinSep sep ps) = ps := by
  induction ps with
  | nil => exact absurd rfl hne
  | cons p qs ih =>
    cases qs with
    | nil => exact pySplit_no_sep (h p (by simp))
    | cons q rs =>
      have h1 : joinSep sep (p :: q :: rs) = p ++ sep :: joinSep sep (q :: rs) := rfl
      rw [h1, pySplit_sep_cons (h p (by simp)),
        ih (by simp) (fun r hr => h r (List.mem_cons_of_mem p hr))]

theorem mem_joinSep_of_mem {sep c : Char} {ps : List PyStr}
    (h : c ∈ joinSep sep ps) : (∃ p ∈ ps, c ∈ p) ∨ c = sep := by
  induction ps with
  | nil => simp [joinSep] at h
  | cons p qs ih =>
    cases qs with
    | nil =>
      simp only [joinSep] at h
      exact Or.inl ⟨p, by simp, h⟩
    | cons q rs =>
      have h1 : joinSep sep (p :: q :: rs) = p ++ sep :: joinSep sep (q :: rs) := rfl
      rw [h1, List.mem_append, List.mem_cons] at h
      rcases h with hp | hc | hrest
      · exact Or.inl ⟨p, by simp, hp⟩
      · exact Or.inr hc
      · rcases ih hrest with ⟨r, hr, hcr⟩ | hc
        · exact Or.inl ⟨r, List.mem_cons_of_mem p hr, hcr⟩
        · exact Or.inr hc

theorem sep_mem_joinSep {sep : Char} {ps : List PyStr} (h : 2 ≤ ps.length) :
    sep ∈ joinSep sep ps := by
  match ps, h with
  | p :: q :: rs, _ =>
    have h1 : joinSep sep (p :: q :: rs) = p ++ sep :: joinSep sep (q :: rs) := rfl
    rw [h1]
    simp

/-! ## Decimal digit lemmas -/

theorem digitChar_isDigit {d : Nat} (h : d < 10) : (Nat.digitChar d).isDigit = true := by
  interval_cases d <;> decide

theorem digitVal_digitChar {d : Nat} (h : d < 10) : digitVal (Nat.digitChar d) = d := by
  interval_cases d <;> decide

theorem isDigit_ne_of_mem {c : Char}
    (h : c.isDigit = true) : c ≠ '-' ∧ c ≠ ',' ∧ c ≠ '^' ∧ c ≠ 'r' := by
  refine ⟨?_, ?_, ?_, ?_⟩ <;> (intro hc; subst hc; exact absurd h (by decide))

theorem natDigits_all_digit (n : Nat) : ∀ c ∈ natDigits n, c.isDigit = true := by
  induction n using Nat.strong_induction_on with
  | _ n ih =>
    by_cases h : n < 10
    · rw [natDigits_lt h]
      intro c hc
      rw [List.mem_singleton] at hc
      subst hc
      exact digitChar_isDigit h
    · rw [natDigits_ge (by omega)]
      intro c hc
      rw [List.mem_append] at hc
      rcases hc with hc | hc
      · exact ih (n / 10) (Nat.div_lt_self (by omega) (by omega)) c hc
      · rw [List.mem_singleton] at hc
        subst hc
        exact digitChar_isDigit (Nat.mod_lt n (by omega))

theorem natDigits_ne_nil (n : Nat) : natDigits n ≠ [] := by
  by_cases h : n < 10
  · rw [natDigits_lt h]; simp
  · rw [natDigits_ge (by omega)]; simp

theorem hyphen_not_mem_natDigits (n : Nat) : '-' ∉ natDigits n :=
  fun h => (isDigit_ne_of_mem (natDigits_all_digit n _ h)).1 rfl

theorem comma_not_mem_natDigits (n : Nat) : ',' ∉ natDigits n :=
  fun h => (isDigit_ne_of_mem (natDigits_all_digit n _ h)).2.1 rfl

theorem caret_not_mem_natDigits (n : Nat) : '^' ∉ natDigits n :=
  fun h => (isDigit_ne_of_mem (natDigits_all_digit n _ h)).2.2.1 rfl

theorem digitsToNat_append_digit (cs : PyStr) (c : Char) :
    digitsToNat (cs ++ [c]) = 10 * digitsToNat cs + digitVal c := by
  simp [digitsToNat, List.foldl_append]

theorem digitsToNat_natDigits (n : Nat) : digitsToNat (natDigits n) = n := by
  induction n using Nat.strong_induction_on with
  | _ n ih =>
    by_cases h : n < 10
    · rw [natDigits_lt h]
      simp [digitsToNat, digitVal_digitChar h]
    · rw [natDigits_ge (by omega), digitsToNat_append_digit,
        ih (n / 10) (Nat.div_lt_self (by omega) (by omega)),
        digitVal_digitChar (Nat.mod_lt n (by omega))]
      omega

theorem isDigits_natDigits (n : Nat) : isDigits (natDigits n) = true := by
  have h1 := natDigits_ne_nil n
  have h2 := natDigits_all_digit n
  simp only [isDigits, Bool.and_eq_true, List.all_eq_true]
  constructor
  · simpa [List.isEmpty_iff] using h1
  · exact fun c hc => by simpa using h2 c hc

theorem pyInt?_natDigits (n : Nat) : pyInt? (natDigits n) = some (n : Int) := by
  cases hd : natDigits n with
  | nil => exact absurd hd (natDigits_ne_nil n)
  | cons c cs =>
    have hc : c.isDigit = true := natDigits_all_digit n c (by rw [hd]; simp)
    have hcm : ¬ c = '-' := (isDigit_ne_of_mem hc).1
    have hds : isDigits (c :: cs) = true := by rw [← hd]; exact isDigits_natDigits n
    have hval : digitsToNat (c :: cs) = n := by rw [← hd]; exact digitsToNat_natDigits n
    simp [pyInt?, hcm, hds, hval]

/-! ## `sortedSet` is the sorted list of a set -/

theorem mem_insortNoDup (x y : Int) (l : List Int) :
    y ∈ insortNoDup x l ↔ y = x ∨ y ∈ l := by
  induction l with
  | nil => simp [insortNoDup]
  | cons z zs ih =>
    by_cases h1 : x < z
    · simp [insortNoDup, h1]
    · by_cases h2 : x = z
      · subst h2
        simp only [insortNoDup, if_neg h1, if_pos rfl]
        constructor
        · exact fun h => Or.inr h
        · rintro (rfl | h) <;> simp_all
      · simp only [insortNoDup, if_neg h1, if_neg h2, List.mem_cons, ih]
        tauto

theorem sorted_insortNoDup (x : Int) (l : List Int) (h : l.Sorted (· < ·)) :
    (insortNoDup x l).Sorted (· < ·) := by
  induction l with
  | nil => simp [insortNoDup]
  | cons z zs ih =>
    rw [List.sorted_cons] at h
    by_cases h1 : x < z
    · simp only [insortNoDup, if_pos h1, List.sorted_cons]
      refine ⟨?_, h⟩
      intro b hb
      rw [List.mem_cons] at hb
      rcases hb with rfl | hb
      · exact h1
      · exact lt_trans h1 (h.1 b hb)
    · by_cases h2 : x = z
      · simp only [insortNoDup, if_neg h1, if_pos h2, List.sorted_cons]
        exact h
      · simp only [insortNoDup, if_neg h1, if_neg h2, List.sorted_cons]
        refine ⟨?_, ih h.2⟩
        intro b hb
        rw [mem_insortNoDup] at hb
        rcases hb with rfl | hb
        · omega
        · exact h.1 b hb

theorem sortedSet_sorted (l : List Int) : (sortedSet l).Sorted (· < ·) := by
  induction l with
  | nil => simp [sortedSet]
  | cons x xs ih => exact sorted_insortNoDup x _ ih

theorem mem_sortedSet (y : Int) (l : List Int) : y ∈ sortedSet l ↔ y ∈ l := by
  induction l with
  | nil => simp [sortedSet]
  | cons x xs ih =>
    simp only [sortedSet, List.foldr_cons] at ih ⊢
    rw [mem_insortNoDup, ih, List.mem_cons]

/-- Two strictly sorted lists with the same elements are equal. -/
theorem sorted_lt_eq_of_mem_iff {l₁ l₂ : List Int} (h1 : l₁.Sorted (· < ·))
    (h2 : l₂.Sorted (· < ·)) (h : ∀ y, y ∈ l₁ ↔ y ∈ l₂) : l₁ = l₂ := by
  refine List.eq_of_perm_of_sorted ?_ h1.le_of_lt h2.le_of_lt
  exact (List.perm_ext_iff_of_nodup h1.nodup h2.nodup).mpr h

/-- `sortedSet` computes exactly the `Finset.sort` of the underlying set. -/
theorem sortedSet_eq_sort (l : List Int) :
    sortedSet l = l.toFinset.sort (· ≤ ·) := by
  refine sorted_lt_eq_of_mem_iff (sortedSet_sorted l) (Finset.sort_sorted_lt _) ?_
  intro y
  rw [mem_sortedSet, Finset.mem_sort, List.mem_toFinset]

/-! ## `pyRange` -/

theorem mem_pyRange (i a c : Int) : i ∈ pyRange a c ↔ a ≤ i ∧ i < c := by
  simp only [pyRange, List.mem_map, List.mem_range]
  constructor
  · rintro ⟨k, hk, rfl⟩
    omega
  · rintro ⟨h1, h2⟩
    exact ⟨(i - a).toNat, by omega, by omega⟩

theorem toFinset_pyRange (a b : Int) :
    (pyRange a (b + 1)).toFinset = Finset.Icc a b := by
  ext i
  rw [List.mem_toFinset, mem_pyRange, Finset.mem_Icc]
  omega

/-! ## Parsing a rendered term -/

theorem render_chars (t : CpuTerm) :
    ∀ c ∈ t.render, c.isDigit = true ∨ c = '-' ∨ c = '^' := by
  intro c hc
  cases t with
  | num n => exact Or.inl (natDigits_all_digit n c hc)
  | rng a b =>
    simp only [CpuTerm.render, List.mem_append, List.mem_cons] at hc
    rcases hc with hc | hc | hc
    · exact Or.inl (natDigits_all_digit a c hc)
    · exact Or.inr (Or.inl hc)
    · exact Or.inl (natDigits_all_digit b c hc)
  | excl n =>
    simp only [CpuTerm.render, List.mem_cons] at hc
    rcases hc with hc | hc
    · exact Or.inr (Or.inr hc)
    · exact Or.inl (natDigits_all_digit n c hc)

theorem comma_not_mem_render (t : CpuTerm) : ',' ∉ t.render := by
  intro h
  rcases render_chars t ',' h with hd | hc | hc
  · exact (isDigit_ne_of_mem hd).2.1 rfl
  · exact absurd hc (by decide)
  · exact absurd hc (by decide)

theorem parsePiece_num (acc : ParserAcc) (n : Nat) :
    parsePiece acc (CpuTerm.render (.num n)) =
      some { acc with commas := acc.commas ++ [(n : Int)] } := by
  have h1 : '-' ∉ natDigits n := hyphen_not_mem_natDigits n
  have h2 : '^' ∉ natDigits n := caret_not_mem_natDigits n
  simp only [CpuTerm.render, parsePiece, if_neg h1, if_neg h2, pyInt?_natDigits]

theorem parsePiece_rng (acc : ParserAcc) (a b : Nat) :
    parsePiece acc (CpuTerm.render (.rng a b)) =
      some { acc with hyphens := acc.hyphens ++ pyRange (a : Int) ((b : Int) + 1) } := by
  have h1 : '-' ∈ CpuTerm.render (.rng a b) := by
    simp [CpuTerm.render]
  have hsplit : pySplit '-' (CpuTerm.render (.rng a b)) = [natDigits a, natDigits b] := by
    show pySplit '-' (natDigits a ++ '-' :: natDigits b) = _
    rw [pySplit_sep_cons (hyphen_not_mem_natDigits a),
      pySplit_no_sep (hyphen_not_mem_natDigits b)]
  simp only [parsePiece, if_pos h1, hsplit, List.headD_cons, List.getLastD_cons,
    List.getLastD_nil, pyInt?_natDigits]

theorem parsePiece_excl (acc : ParserAcc) (n : Nat) :
    parsePiece acc (CpuTerm.render (.excl n)) =
      some { acc with carets := acc.carets ++ [(n : Int)] } := by
  have h1 : '-' ∉ CpuTerm.render (.excl n) := by
    intro h
    simp only [CpuTerm.render, List.mem_cons] at h
    rcases h with h | h
    · exact absurd h (by decide)
    · exact hyphen_not_mem_natDigits n h
  have h2 : '^' ∈ CpuTerm.render (.excl n) := by simp [CpuTerm.render]
  have hsplit : pySplit '^' (CpuTerm.render (.excl n)) = [[], natDigits n] := by
    show pySplit '^' ('^' :: natDigits n) = _
    simp [pySplit, pySplit_no_sep (caret_not_mem_natDigits n)]
  simp only [parsePiece, if_neg h1, if_pos h2, hsplit, List.getLastD_cons,
    List.getLastD_nil, pyInt?_natDigits]

/-- The `hyphens` list after the comma loop of `cpus_parser` over `ts`. -/
def hyphensOf : List CpuTerm → List Int
  | [] => []
  | .rng a b :: ts => pyRange (a : Int) ((b : Int) + 1) ++ hyphensOf ts
  | _ :: ts => hyphensOf ts

/-- The `carets` list after the comma loop of `cpus_parser` over `ts`. -/
def caretsOf : List CpuTerm → List Int
  | [] => []
  | .excl n :: ts => (n : Int) :: caretsOf ts
  | _ :: ts => caretsOf ts

/-- The `commas` list after the comma loop of `cpus_parser` over `ts`. -/
def commasOf : List CpuTerm → List Int
  | [] => []
  | .num n :: ts => (n : Int) :: commasOf ts
  | _ :: ts => commasOf ts

theorem parsePieces_renders (ts : List CpuTerm) : ∀ acc : ParserAcc,
    parsePieces acc (ts.map CpuTerm.render) =
      some ⟨acc.hyphens ++ hyphensOf ts, acc.carets ++ caretsOf ts,
        acc.commas ++ commasOf ts⟩ := by
  induction ts with
  | nil => intro acc; simp [parsePieces, hyphensOf, caretsOf, commasOf]
  | cons t ts ih =>
    intro acc
    cases t with
    | num n =>
      rw [List.map_cons]
      simp only [parsePieces, parsePiece_num, ih, hyphensOf, caretsOf, commasOf,
        List.append_assoc, List.singleton_append]
    | rng a b =>
      rw [List.map_cons]
      simp only [parsePieces, parsePiece_rng, ih, hyphensOf, caretsOf, commasOf,
        List.append_assoc]
    | excl n =>
      rw [List.map_cons]
      simp only [parsePieces, parsePiece_excl, ih, hyphensOf, caretsOf, commasOf,
        List.append_assoc, List.singleton_append]

theorem CpuTerm.includes_num (n : Nat) : (CpuTerm.num n).includes = {(n : Int)} := rfl

theorem CpuTerm.includes_rng (a b : Nat) :
    (CpuTerm.rng a b).includes = Finset.Icc (a : Int) (b : Int) := rfl

theorem CpuTerm.includes_excl (n : Nat) : (CpuTerm.excl n).includes = ∅ := rfl

theorem CpuTerm.excludes_num (n : Nat) : (CpuTerm.num n).excludes = ∅ := rfl

theorem CpuTerm.excludes_rng (a b : Nat) : (CpuTerm.rng a b).excludes = ∅ := rfl

theorem CpuTerm.excludes_excl (n : Nat) : (CpuTerm.excl n).excludes = {(n : Int)} := rfl

theorem mem_excludes_foldr (ts : List CpuTerm) (i : Int) :
    i ∈ ts.foldr (fun t s => t.excludes ∪ s) ∅ ↔ i ∈ caretsOf ts := by
  induction ts with
  | nil => simp [caretsOf]
  | cons t ts ih =>
    cases t with
    | num n => simpa [caretsOf, CpuTerm.excludes_num] using ih
    | rng a b => simpa [caretsOf, CpuTerm.excludes_rng] using ih
    | excl n => simp [caretsOf, CpuTerm.excludes_excl, ih]

theorem mem_includes_foldr (ts : List CpuTerm) (i : Int) :
    i ∈ ts.foldr (fun t s => t.includes ∪ s) ∅ ↔
      i ∈ hyphensOf ts ∨ i ∈ commasOf ts := by
  induction ts with
  | nil => simp [hyphensOf, commasOf]
  | cons t ts ih =>
    cases t with
    | num n =>
      simp only [hyphensOf, commasOf, List.foldr_cons, CpuTerm.includes_num,
        Finset.mem_union, Finset.mem_singleton, ih, List.mem_cons]
      tauto
    | rng a b =>
      simp only [hyphensOf, commasOf, List.foldr_cons, CpuTerm.includes_rng,
        Finset.mem_union, Finset.mem_Icc, ih, List.mem_append, mem_pyRange]
      constructor
      · rintro (h | h | h)
        · exact Or.inl (Or.inl (by omega))
        · exact Or.inl (Or.inr h)
        · exact Or.inr h
      · rintro ((h | h) | h)
        · exact Or.inl (by omega)
        · exact Or.inr (Or.inl h)
        · exact Or.inr (Or.inr h)
    | excl n =>
      simp only [hyphensOf, commasOf, List.foldr_cons, CpuTerm.includes_excl,
        Finset.mem_union, Finset.not_mem_empty, false_or, ih]

theorem finishSet_eq (acc : ParserAcc) :
    finishSet acc = Finset.sort (· ≤ ·)
      ((acc.hyphens.toFinset ∪ acc.commas.toFinset) \ acc.carets.toFinset) := by
  rw [finishSet, sortedSet_eq_sort]
  congr 1
  ext x
  simp only [List.mem_toFinset, List.mem_filter, List.mem_append, decide_eq_true_eq,
    Finset.mem_sdiff, Finset.mem_union]

/-! ## Pointwise behaviour of the affinity-list loop -/

theorem getD_set (A : List Char) (n i : Nat) (c d : Char) :
    (A.set n c).getD i d = if i = n ∧ n < A.length then c else A.getD i d := by
  induction A generalizing n i with
  | nil => simp
  | cons a as ih =>
    cases n with
    | zero =>
      cases i with
      | zero => simp
      | succ j => simp
    | succ m =>
      cases i with
      | zero => simp
      | succ j =>
        simp only [List.set_cons_succ, List.getD_cons_succ, ih, List.length_cons]
        by_cases h : j = m ∧ m < as.length
        · rw [if_pos h, if_pos ⟨by omega, by omega⟩]
        · rw [if_neg h, if_neg (by omega)]

theorem pySet_nonneg {A : List Char} {i : Int} {c : Char}
    (h0 : 0 ≤ i) (h1 : i < (A.length : Int)) :
    pySet A i c = some (A.set i.toNat c) := by
  simp only [pySet, if_neg (by omega : ¬ i < 0)]
  rw [if_pos ⟨h0, h1⟩]

theorem setIndices_spec (c d : Char) (idxs : List Int) : ∀ A : List Char,
    (∀ j ∈ idxs, 0 ≤ j ∧ j < (A.length : Int)) →
    ∃ A2, setIndices A idxs c = some A2 ∧ A2.length = A.length ∧
      ∀ i : Nat, i < A.length →
        A2.getD i d = if (i : Int) ∈ idxs then c else A.getD i d := by
  induction idxs with
  | nil =>
    intro A _
    exact ⟨A, rfl, rfl, fun i _ => by simp⟩
  | cons j js ih =>
    intro A hb
    obtain ⟨hj0, hjlen⟩ := hb j (by simp)
    have hset : pySet A j c = some (A.set j.toNat c) := pySet_nonneg hj0 hjlen
    have hlen : (A.set j.toNat c).length = A.length := A.length_set j.toNat c
    obtain ⟨A2, hA2, hlen2, hval⟩ := ih (A.set j.toNat c)
      (fun k hk => by rw [hlen]; exact hb k (List.mem_cons_of_mem j hk))
    refine ⟨A2, ?_, by omega, ?_⟩
    · simp only [setIndices, hset, hA2]
    · intro i hi
      rw [hval i (by omega), getD_set]
      by_cases hmem : (i : Int) ∈ js
      · rw [if_pos hmem, if_pos (List.mem_cons_of_mem j hmem)]
      · rw [if_neg hmem]
        by_cases heq : (i : Int) = j
        · rw [if_pos (⟨by omega, by omega⟩ : i = j.toNat ∧ j.toNat < A.length),
            if_pos (by rw [List.mem_cons]; exact Or.inl heq)]
        · rw [if_neg (by omega : ¬ (i = j.toNat ∧ j.toNat < A.length)),
            if_neg (by rw [List.mem_cons]; tauto)]

theorem stripCaret_excl (n : Nat) :
    stripCaret (CpuTerm.render (.excl n)) = natDigits n := by
  have h1 : ('^' :: natDigits n).dropWhile (· = '^') = natDigits n := by
    rw [List.dropWhile_cons_of_pos (by simp)]
    cases hd : natDigits n with
    | nil => exact absurd hd (natDigits_ne_nil n)
    | cons c cs =>
      have hc : ¬ (c = '^') :=
        (isDigit_ne_of_mem (natDigits_all_digit n c (by rw [hd]; simp))).2.2.1
      rw [List.dropWhile_cons_of_neg (by simpa using hc)]
  have h2 : (natDigits n).reverse.dropWhile (· = '^') = (natDigits n).reverse := by
    cases hr : (natDigits n).reverse with
    | nil => rfl
    | cons c cs =>
      have hc : c ∈ natDigits n := by
        rw [← List.mem_reverse, hr]; simp
      have hcne : ¬ (c = '^') := (isDigit_ne_of_mem (natDigits_all_digit n c hc)).2.2.1
      rw [List.dropWhile_cons_of_neg (by simpa using hcne)]
  rw [stripCaret, show CpuTerm.render (.excl n) = '^' :: natDigits n from rfl,
    h1, h2, List.reverse_reverse]

/-- One loop iteration of `cpus_string_to_affinity_list` on the rendered
string of one term: a number or range term marks its CPUs with `y`, an
exclusion resets its CPU to `-`. -/
theorem affinityPiece_step (t : CpuTerm) (A : List Char)
    (hidx : ∀ n ∈ t.indices, n < A.length) :
    ∃ A2, affinityPiece A t.render = some A2 ∧ A2.length = A.length ∧
      ∀ i : Nat, i < A.length →
        A2.getD i '-' = if (i : Int) ∈ t.includes then 'y'
          else if (i : Int) ∈ t.excludes then '-' else A.getD i '-' := by
  cases t with
  | num n =>
    have hn : n < A.length := hidx n (by simp [CpuTerm.indices])
    have h1 : '-' ∉ natDigits n := hyphen_not_mem_natDigits n
    have h2 : '^' ∉ natDigits n := caret_not_mem_natDigits n
    have hset : pySet A (n : Int) 'y' = some (A.set n 'y') := by
      have := pySet_nonneg (A := A) (i := (n : Int)) (c := 'y') (by omega) (by omega)
      rwa [Int.toNat_natCast] at this
    refine ⟨A.set n 'y', ?_, A.length_set n 'y', ?_⟩
    · simp only [CpuTerm.render, affinityPiece, if_neg h1, if_neg h2,
        pyInt?_natDigits, hset]
    · intro i hi
      rw [getD_set]
      simp only [CpuTerm.includes_num, CpuTerm.excludes_num, Finset.mem_singleton,
        Finset.not_mem_empty, if_false]
      by_cases heq : (i : Int) = (n : Int)
      · rw [if_pos heq, if_pos ⟨by omega, hn⟩]
      · rw [if_neg heq, if_neg (by omega)]
  | rng a b =>
    have ha : a < A.length := hidx a (by simp [CpuTerm.indices])
    have hb : b < A.length := hidx b (by simp [CpuTerm.indices])
    have h1 : '-' ∈ CpuTerm.render (.rng a b) := by simp [CpuTerm.render]
    have hsplit : pySplit '-' (CpuTerm.render (.rng a b)) = [natDigits a, natDigits b] := by
      show pySplit '-' (natDigits a ++ '-' :: natDigits b) = _
      rw [pySplit_sep_cons (hyphen_not_mem_natDigits a),
        pySplit_no_sep (hyphen_not_mem_natDigits b)]
    obtain ⟨A2, hA2, hlen, hval⟩ := setIndices_spec 'y' '-'
      (pyRange (a : Int) ((b : Int) + 1)) A
      (fun j hj => by rw [mem_pyRange] at hj; constructor <;> omega)
    refine ⟨A2, ?_, hlen, ?_⟩
    · simp only [affinityPiece, if_pos h1, hsplit, List.headD_cons, List.getLastD_cons,
        List.getLastD_nil, pyInt?_natDigits, hA2]
    · intro i hi
      rw [hval i hi]
      simp only [CpuTerm.includes_rng, CpuTerm.excludes_rng]
      by_cases hin : (i : Int) ∈ Finset.Icc (a : Int) (b : Int)
      · rw [Finset.mem_Icc] at hin
        rw [if_pos (by rw [mem_pyRange]; omega), if_pos (by rw [Finset.mem_Icc]; omega)]
      · rw [Finset.mem_Icc] at hin
        rw [if_neg (by rw [mem_pyRange]; omega), if_neg (by rw [Finset.mem_Icc]; omega),
          if_neg (Finset.not_mem_empty _)]
  | excl n =>
    have hn : n < A.length := hidx n (by simp [CpuTerm.indices])
    have h1 : '-' ∉ CpuTerm.render (.excl n) := by
      intro h
      simp only [CpuTerm.render, List.mem_cons] at h
      rcases h with h | h
      · exact absurd h (by decide)
      · exact hyphen_not_mem_natDigits n h
    have h2 : '^' ∈ CpuTerm.render (.excl n) := by simp [CpuTerm.render]
    have hset : pySet A (n : Int) '-' = some (A.set n '-') := by
      have := pySet_nonneg (A := A) (i := (n : Int)) (c := '-') (by omega) (by omega)
      rwa [Int.toNat_natCast] at this
    refine ⟨A.set n '-', ?_, A.length_set n '-', ?_⟩
    · simp only [affinityPiece, if_neg h1, if_pos h2, stripCaret_excl,
        pyInt?_natDigits, hset]
    · intro i hi
      rw [getD_set]
      simp only [CpuTerm.includes_excl, CpuTerm.excludes_excl, Finset.mem_singleton,
        Finset.not_mem_empty, if_false]
      by_cases heq : (i : Int) = (n : Int)
      · rw [if_pos ⟨by omega, hn⟩, if_pos heq]
      · rw [if_neg (by omega), if_neg heq]

theorem excludes_empty_of_not_isExcl {t : CpuTerm} (h : t.isExcl = false) :
    t.excludes = ∅ := by
  cases t with
  | num n => rfl
  | rng a b => rfl
  | excl n => simp [CpuTerm.isExcl] at h

theorem includes_empty_of_isExcl {t : CpuTerm} (h : t.isExcl = true) :
    t.includes = ∅ := by
  cases t with
  | num n => simp [CpuTerm.isExcl] at h
  | rng a b => simp [CpuTerm.isExcl] at h
  | excl n => rfl

theorem affinityPieces_append (ps qs : List PyStr) : ∀ A : List Char,
    affinityPieces A (ps ++ qs) =
      (affinityPieces A ps).bind (fun A2 => affinityPieces A2 qs) := by
  induction ps with
  | nil => intro A; simp [affinityPieces]
  | cons p ps ih =>
    intro A
    simp only [List.cons_append, affinityPieces]
    cases affinityPiece A p with
    | none => simp
    | some A2 => simp [ih]

/-- Processing a run of number/range terms marks exactly the union of their
included CPUs with `y` and leaves every other position unchanged. -/
theorem affinityPieces_incl (ts : List CpuTerm) (hne : ∀ t ∈ ts, t.isExcl = false) :
    ∀ A : List Char, (∀ n ∈ termIndices ts, n < A.length) →
    ∃ A2, affinityPieces A (ts.map CpuTerm.render) = some A2 ∧
      A2.length = A.length ∧
      ∀ i : Nat, i < A.length →
        A2.getD i '-' = if (i : Int) ∈ ts.foldr (fun t s => t.includes ∪ s) ∅ then 'y'
          else A.getD i '-' := by
  induction ts with
  | nil =>
    intro A _
    exact ⟨A, rfl, rfl, fun i _ => by simp [affinityPieces]⟩
  | cons t ts ih =>
    intro A hb
    have hbt : ∀ n ∈ t.indices, n < A.length := fun n hn =>
      hb n (by simp [termIndices, List.mem_cons, hn])
    obtain ⟨A1, hA1, hlen1, hv1⟩ := affinityPiece_step t A hbt
    obtain ⟨A2, hA2, hlen2, hv2⟩ := ih (fun u hu => hne u (List.mem_cons_of_mem t hu)) A1
      (fun n hn => by rw [hlen1]; exact hb n (by simp [termIndices]; right; simpa [termIndices] using hn))
    refine ⟨A2, ?_, by omega, ?_⟩
    · simp only [List.map_cons, affinityPieces, hA1, hA2]
    · intro i hi
      rw [hv2 i (by omega), hv1 i hi, excludes_empty_of_not_isExcl (hne t (by simp)),
        List.foldr_cons]
      by_cases hrest : (i : Int) ∈ ts.foldr (fun t s => t.includes ∪ s) ∅
      · rw [if_pos hrest, if_pos (Finset.mem_union_right _ hrest)]
      · rw [if_neg hrest]
        by_cases hcur : (i : Int) ∈ t.includes
        · rw [if_pos hcur, if_pos (Finset.mem_union_left _ hcur)]
        · rw [if_neg hcur, if_neg (Finset.not_mem_empty _),
            if_neg (by rw [Finset.mem_union]; tauto)]

/-- Processing a run of exclusion terms resets exactly the excluded CPUs to
`-` and leaves every other position unchanged. -/
theorem affinityPieces_excl (ts : List CpuTerm) (hex : ∀ t ∈ ts, t.isExcl = true) :
    ∀ A : List Char, (∀ n ∈ termIndices ts, n < A.length) →
    ∃ A2, affinityPieces A (ts.map CpuTerm.render) = some A2 ∧
      A2.length = A.length ∧
      ∀ i : Nat, i < A.length →
        A2.getD i '-' = if (i : Int) ∈ ts.foldr (fun t s => t.excludes ∪ s) ∅ then '-'
          else A.getD i '-' := by
  induction ts with
  | nil =>
    intro A _
    exact ⟨A, rfl, rfl, fun i _ => by simp [affinityPieces]⟩
  | cons t ts ih =>
    intro A hb
    have hbt : ∀ n ∈ t.indices, n < A.length := fun n hn =>
      hb n (by simp [termIndices, List.mem_cons, hn])
    obtain ⟨A1, hA1, hlen1, hv1⟩ := affinityPiece_step t A hbt
    obtain ⟨A2, hA2, hlen2, hv2⟩ := ih (fun u hu => hex u (List.mem_cons_of_mem t hu)) A1
      (fun n hn => by rw [hlen1]; exact hb n (by simp [termIndices]; right; simpa [termIndices] using hn))
    refine ⟨A2, ?_, by omega, ?_⟩
    · simp only [List.map_cons, affinityPieces, hA1, hA2]
    · intro i hi
      rw [hv2 i (by omega), hv1 i hi, includes_empty_of_isExcl (hex t (by simp)),
        List.foldr_cons]
      by_cases hrest : (i : Int) ∈ ts.foldr (fun t s => t.excludes ∪ s) ∅
      · rw [if_pos hrest, if_pos (Finset.mem_union_right _ hrest)]
      · rw [if_neg hrest]
        by_cases hcur : (i : Int) ∈ t.excludes
        · rw [if_neg (Finset.not_mem_empty _), if_pos hcur,
            if_pos (Finset.mem_union_left _ hcur)]
        · rw [if_neg (Finset.not_mem_empty _), if_neg hcur,
            if_neg (by rw [Finset.mem_union]; tauto)]

/-- Processing any run of terms only ever writes `y` or `-`. -/
theorem affinityPieces_values (ts : List CpuTerm) : ∀ A : List Char,
    (∀ n ∈ termIndices ts, n < A.length) →
    ∃ A2, affinityPieces A (ts.map CpuTerm.render) = some A2 ∧
      A2.length = A.length ∧
      ∀ i : Nat, i < A.length →
        A2.getD i '-' = 'y' ∨ A2.getD i '-' = '-' ∨ A2.getD i '-' = A.getD i '-' := by
  induction ts with
  | nil =>
    intro A _
    exact ⟨A, rfl, rfl, fun i _ => Or.inr (Or.inr rfl)⟩
  | cons t ts ih =>
    intro A hb
    have hbt : ∀ n ∈ t.indices, n < A.length := fun n hn =>
      hb n (by simp [termIndices, List.mem_cons, hn])
    obtain ⟨A1, hA1, hlen1, hv1⟩ := affinityPiece_step t A hbt
    obtain ⟨A2, hA2, hlen2, hv2⟩ := ih A1
      (fun n hn => by rw [hlen1]; exact hb n (by simp [termIndices]; right; simpa [termIndices] using hn))
    refine ⟨A2, ?_, by omega, ?_⟩
    · simp only [List.map_cons, affinityPieces, hA1, hA2]
    · intro i hi
      rcases hv2 i (by omega) with h | h | h
      · exact Or.inl h
      · exact Or.inr (Or.inl h)
      · rw [h, hv1 i hi]
        by_cases h1 : (i : Int) ∈ t.includes
        · rw [if_pos h1]; exact Or.inl rfl
        · rw [if_neg h1]
          by_cases h2 : (i : Int) ∈ t.excludes
          · rw [if_pos h2]; exact Or.inr (Or.inl rfl)
          · rw [if_neg h2]; exact Or.inr (Or.inr rfl)

theorem renderTerms_ne_r (ts : List CpuTerm) : renderTerms ts ≠ ['r'] := by
  intro h
  have hr : 'r' ∈ renderTerms ts := by rw [h]; simp
  rcases mem_joinSep_of_mem hr with ⟨p, hp, hrp⟩ | hc
  · rw [List.mem_map] at hp
    obtain ⟨t, _, rfl⟩ := hp
    rcases render_chars t 'r' hrp with hd | hc | hc
    · exact (isDigit_ne_of_mem hd).2.2.2 rfl
    · exact absurd hc (by decide)
    · exact absurd hc (by decide)
  · exact absurd hc (by decide)

theorem split_renderTerms {ts : List CpuTerm} (hne : ts ≠ []) :
    pySplit ',' (renderTerms ts) = ts.map CpuTerm.render := by
  refine pySplit_joinSep ?_ ?_
  · simpa using hne
  · intro p hp
    rw [List.mem_map] at hp
    obtain ⟨t, _, rfl⟩ := hp
    exact comma_not_mem_render t

/-- For a nonempty term list the affinity function runs the piece loop on
the rendered terms over an all-`-` list. -/
theorem cpus_string_to_affinity_list_renders {ts : List CpuTerm} (hne : ts ≠ [])
    (num : Nat) :
    cpus_string_to_affinity_list (renderTerms ts) num =
      affinityPieces (List.replicate num '-') (ts.map CpuTerm.render) := by
  rw [cpus_string_to_affinity_list, if_neg (renderTerms_ne_r ts), split_renderTerms hne]

theorem getD_replicate (num i : Nat) (c d : Char) :
    (List.replicate num c).getD i d = if i < num then c else d := by
  induction num generalizing i with
  | zero => simp
  | succ m ih =>
    cases i with
    | zero => simp [List.replicate]
    | succ j =>
      simp only [List.replicate, List.getD_cons_succ, ih]
      by_cases h : j < m
      · rw [if_pos h, if_pos (by omega)]
      · rw [if_neg h, if_neg (by omega)]

theorem getD_eq_get (A : List Char) (i : Nat) (d : Char) (h : i < A.length) :
    A.getD i d = A.get ⟨i, h⟩ := by
  induction A generalizing i with
  | nil => simp at h
  | cons a as ih =>
    cases i with
    | zero => simp
    | succ j => simpa using ih j (by simpa using h)

theorem includes_foldr_of_all_excl {ts : List CpuTerm}
    (h : ∀ t ∈ ts, t.isExcl = true) :
    ts.foldr (fun t s => t.includes ∪ s) ∅ = ∅ := by
  induction ts with
  | nil => rfl
  | cons t ts ih =>
    rw [List.foldr_cons, includes_empty_of_isExcl (h t (by simp)),
      ih (fun u hu => h u (List.mem_cons_of_mem t hu)), Finset.empty_union]

theorem excludes_foldr_of_all_incl {ts : List CpuTerm}
    (h : ∀ t ∈ ts, t.isExcl = false) (init : Finset Int) :
    ts.foldr (fun t s => t.excludes ∪ s) init = init := by
  induction ts with
  | nil => rfl
  | cons t ts ih =>
    rw [List.foldr_cons, ih (fun u hu => h u (List.mem_cons_of_mem t hu)),
      excludes_empty_of_not_isExcl (h t (by simp)), Finset.empty_union]

theorem includes_foldr_init (ts : List CpuTerm) (init : Finset Int) :
    ts.foldr (fun t s => t.includes ∪ s) init =
      ts.foldr (fun t s => t.includes ∪ s) ∅ ∪ init := by
  induction ts with
  | nil => simp
  | cons t ts ih => rw [List.foldr_cons, List.foldr_cons, ih, Finset.union_assoc]

/-- On a term list of the shape "inclusions first, exclusions last", the
specification set of `cpus_parser` and the in-order marking of
`cpus_string_to_affinity_list` agree position by position. -/
theorem specSet_split {incl excls : List CpuTerm}
    (h2 : ∀ t ∈ incl, t.isExcl = false) (h3 : ∀ t ∈ excls, t.isExcl = true) :
    specSet (incl ++ excls) =
      (incl.foldr (fun t s => t.includes ∪ s) ∅) \
        (excls.foldr (fun t s => t.excludes ∪ s) ∅) := by
  rw [specSet, List.foldr_append, List.foldr_append,
    includes_foldr_of_all_excl h3, excludes_foldr_of_all_incl h2]

/-- The central parser lemma: on any comma-separated list of at least two
terms, and on a single number or range term, `cpus_parser` returns the
sorted list of the union of the range and number terms minus the excluded
numbers. -/
theorem cpusParser_renderTerms (ts : List CpuTerm)
    (h : 2 ≤ ts.length ∨ ∃ t, ts = [t] ∧ t.isExcl = false) :
    cpusParser (renderTerms ts) = some (Finset.sort (· ≤ ·) (specSet ts)) := by
  rcases h with h | ⟨t, rfl, ht⟩
  · -- at least two terms: the string contains a comma
    have hc : ',' ∈ renderTerms ts := by
      refine sep_mem_joinSep ?_
      simpa using h
    have hsplit : pySplit ',' (renderTerms ts) = ts.map CpuTerm.render := by
      refine pySplit_joinSep ?_ ?_
      · intro hnil
        rw [List.map_eq_nil_iff] at hnil
        subst hnil
        simp at h
      · intro p hp
        rw [List.mem_map] at hp
        obtain ⟨t, _, rfl⟩ := hp
        exact comma_not_mem_render t
    rw [cpusParser, if_pos hc, hsplit, parsePieces_renders ts ⟨[], [], []⟩]
    simp only [List.nil_append, finishSet_eq]
    congr 2
    ext i
    simp only [Finset.mem_sdiff, Finset.mem_union, List.mem_toFinset, specSet,
      mem_includes_foldr, mem_excludes_foldr]
  · -- a single number or range term
    have hrt : renderTerms [t] = t.render := rfl
    cases t with
    | num n =>
      have h1 : ',' ∉ renderTerms [CpuTerm.num n] := by
        rw [hrt]; exact comma_not_mem_render _
      have h2 : '-' ∉ renderTerms [CpuTerm.num n] := hyphen_not_mem_natDigits n
      have h3 : '^' ∉ renderTerms [CpuTerm.num n] := caret_not_mem_natDigits n
      rw [cpusParser, if_neg h1, if_neg h2, if_neg h3]
      rw [show renderTerms [CpuTerm.num n] = natDigits n from rfl, pyInt?_natDigits]
      have hspec : specSet [CpuTerm.num n] = {(n : Int)} := by
        simp [specSet, CpuTerm.includes, CpuTerm.excludes]
      rw [hspec, Finset.sort_singleton]
    | rng a b =>
      have h1 : ',' ∉ renderTerms [CpuTerm.rng a b] := by
        rw [hrt]; exact comma_not_mem_render _
      have h2 : '-' ∈ renderTerms [CpuTerm.rng a b] := by
        rw [hrt]; simp [CpuTerm.render]
      have hsplit : pySplit '-' (renderTerms [CpuTerm.rng a b]) =
          [natDigits a, natDigits b] := by
        rw [hrt]
        show pySplit '-' (natDigits a ++ '-' :: natDigits b) = _
        rw [pySplit_sep_cons (hyphen_not_mem_natDigits a),
          pySplit_no_sep (hyphen_not_mem_natDigits b)]
      rw [cpusParser, if_neg h1, if_pos h2, hsplit]
      simp only [List.headD_cons, List.getLastD_cons, List.getLastD_nil,
        pyInt?_natDigits]
      have hspec : specSet [CpuTerm.rng a b] = Finset.Icc (a : Int) (b : Int) := by
        simp [specSet, CpuTerm.includes, CpuTerm.excludes]
      rw [finishSet_eq, hspec]
      congr 1
      simp [toFinset_pyRange]
    | excl n => simp [CpuTerm.isExcl] at ht

theorem termIndices_append (l1 l2 : List CpuTerm) :
    termIndices (l1 ++ l2) = termIndices l1 ++ termIndices l2 := by
  simp [termIndices]

/-- The two functions agree when every exclusion term comes after all
number/range terms: position `i` of the affinity list is `y` exactly when
`i` is in the parser result. -/
theorem affinity_matches_parserResult (incl excls : List CpuTerm)
    (h1 : incl ≠ []) (h2 : ∀ t ∈ incl, t.isExcl = false)
    (h3 : ∀ t ∈ excls, t.isExcl = true) (num : Nat)
    (hb : ∀ n ∈ termIndices (incl ++ excls), n < num) :
    ∃ A l, cpus_string_to_affinity_list (renderTerms (incl ++ excls)) num = some A ∧
      cpusParser (renderTerms (incl ++ excls)) = some l ∧
      ∀ i : Nat, i < num → (A.getD i '-' = 'y' ↔ (i : Int) ∈ l) := by
  have hne : incl ++ excls ≠ [] := by
    intro h
    exact h1 (List.append_eq_nil.mp h).1
  have hcond : 2 ≤ (incl ++ excls).length ∨
      ∃ t, incl ++ excls = [t] ∧ t.isExcl = false := by
    match incl, h1 with
    | t :: rest, _ =>
      cases hr : rest with
      | nil =>
        cases he : excls with
        | nil => exact Or.inr ⟨t, by simp [hr, he], h2 t (by simp)⟩
        | cons e es => left; subst hr he; simp [List.length_append]
      | cons u us => left; subst hr; simp [List.length_append]
  have hparse := cpusParser_renderTerms (incl ++ excls) hcond
  have hb1 : ∀ n ∈ termIndices incl, n < (List.replicate num '-').length := by
    intro n hn
    rw [List.length_replicate]
    exact hb n (by rw [termIndices_append]; exact List.mem_append_left _ hn)
  obtain ⟨A1, hA1, hlen1, hv1⟩ := affinityPieces_incl incl h2 (List.replicate num '-') hb1
  have hlen1' : A1.length = num := by simpa using hlen1
  have hb2 : ∀ n ∈ termIndices excls, n < A1.length := by
    intro n hn
    rw [hlen1']
    exact hb n (by rw [termIndices_append]; exact List.mem_append_right _ hn)
  obtain ⟨A2, hA2, hlen2, hv2⟩ := affinityPieces_excl excls h3 A1 hb2
  refine ⟨A2, Finset.sort (· ≤ ·) (specSet (incl ++ excls)), ?_, hparse, ?_⟩
  · rw [cpus_string_to_affinity_list_renders hne num, List.map_append,
      affinityPieces_append, hA1]
    simpa using hA2
  · intro i hi
    have hv2i := hv2 i (by omega)
    have hv1i := hv1 i (by rw [List.length_replicate]; exact hi)
    have hmem : ((i : Int) ∈ Finset.sort (· ≤ ·) (specSet (incl ++ excls))) ↔
        ((i : Int) ∈ incl.foldr (fun t s => t.includes ∪ s) ∅ ∧
          (i : Int) ∉ excls.foldr (fun t s => t.excludes ∪ s) ∅) := by
      rw [Finset.mem_sort, specSet_split h2 h3, Finset.mem_sdiff]
    rw [hmem]
    by_cases hex : (i : Int) ∈ excls.foldr (fun t s => t.excludes ∪ s) ∅
    · rw [hv2i, if_pos hex]
      constructor
      · intro h; exact absurd h (by decide)
      · rintro ⟨_, hn⟩; exact absurd hex hn
    · rw [hv2i, if_neg hex, hv1i]
      by_cases hin : (i : Int) ∈ incl.foldr (fun t s => t.includes ∪ s) ∅
      · rw [if_pos hin]
        exact ⟨fun _ => ⟨hin, hex⟩, fun _ => rfl⟩
      · rw [if_neg hin, getD_replicate, if_pos hi]
        constructor
        · intro h; exact absurd h (by decide)
        · rintro ⟨hmem2, _⟩; exact absurd hmem2 hin

/-- On any nonempty term string whose numbers are below `num_cpus`, the
affinity function returns a `num_cpus`-long list over the alphabet
`{y, -}`. -/
theorem affinity_wellformed (ts : List CpuTerm) (hne : ts ≠ []) (num : Nat)
    (hb : ∀ n ∈ termIndices ts, n < num) :
    ∃ A, cpus_string_to_affinity_list (renderTerms ts) num = some A ∧
      A.length = num ∧ ∀ c ∈ A, c = 'y' ∨ c = '-' := by
  obtain ⟨A2, hA2, hlen, hv⟩ := affinityPieces_values ts (List.replicate num '-')
    (by intro n hn; rw [List.length_replicate]; exact hb n hn)
  have hlen' : A2.length = num := by simpa using hlen
  refine ⟨A2, ?_, hlen', ?_⟩
  · rw [cpus_string_to_affinity_list_renders hne num]
    exact hA2
  · intro c hc
    obtain ⟨⟨i, hi⟩, rfl⟩ := List.mem_iff_get.mp hc
    have hiv := hv i (by rw [List.length_replicate]; omega)
    rw [getD_eq_get A2 i '-' hi] at hiv
    rcases hiv with h | h | h
    · exact Or.inl h
    · exact Or.inr h
    · rw [getD_replicate, if_pos (by omega : i < num)] at h
      exact Or.inr h

/-! ## Claims C1, C2, C3, C9 -/

/-- C1 (amended): for every CPU-list string made of comma-separated terms
(a decimal number `N`, a range `A-B` or an exclusion `^N`), **provided the
string has at least two terms or its single term is a number or a range**,
`cpus_parser` returns the sorted list of the union of all range terms
`[A..B]` and all single-number terms minus the set of all excluded numbers;
exclusions are applied by set difference at the end, so an exclusion removes
its number no matter where it appears in the string. -/
theorem C1_cpus_parser_sorted_set_minus_exclusions (ts : List CpuTerm)
    (h : 2 ≤ ts.length ∨ ∃ t, ts = [t] ∧ t.isExcl = false) :
    cpusParser (renderTerms ts) = some (Finset.sort (· ≤ ·) (specSet ts)) :=
  cpusParser_renderTerms ts h

theorem C1_witness :
    (2 ≤ ([CpuTerm.rng 0 2, CpuTerm.excl 1] : List CpuTerm).length ∨
      ∃ t, ([CpuTerm.rng 0 2, CpuTerm.excl 1] : List CpuTerm) = [t] ∧ t.isExcl = false) ∧
    cpusParser (renderTerms [CpuTerm.rng 0 2, CpuTerm.excl 1]) =
      some (Finset.sort (· ≤ ·) (specSet [CpuTerm.rng 0 2, CpuTerm.excl 1])) :=
  ⟨Or.inl (by decide),
    C1_cpus_parser_sorted_set_minus_exclusions [CpuTerm.rng 0 2, CpuTerm.excl 1]
      (Or.inl (by decide))⟩

/-- C1 counterexample: on the one-term string `"^3"` `cpus_parser` raises a
`ValueError` (modelled as `none`) instead of returning the sorted list of
the empty set. -/
theorem C1_counterexample :
    ¬ (cpusParser (renderTerms [CpuTerm.excl 3]) =
        some (Finset.sort (· ≤ ·) (specSet [CpuTerm.excl 3]))) := by
  intro h
  rw [show cpusParser (renderTerms [CpuTerm.excl 3]) = none from rfl] at h
  exact Option.noConfusion h

/-- C3: on the syntactically valid one-term input `"^3"` `cpus_parser`
does not return a value: line 188 of the source splits on the unescaped
regex anchor `"^"`, so the whole string reaches `int()` and a `ValueError`
is raised. -/
theorem C3_caret_single_term :
    cpusParser (renderTerms [CpuTerm.excl 3]) = none := by
  decide

/-- C2 (amended): the two parsers agree **provided the string has at least
one number/range term and every exclusion term occurs after every
number/range term**: for every such string and every `num_cpus` strictly
greater than every CPU index occurring in it, position `i` of
`cpus_string_to_affinity_list` is `y` exactly when `i` is an element of
`cpus_parser`'s result. -/
theorem C2_affinity_list_matches_cpusParser (incl excls : List CpuTerm)
    (h1 : incl ≠ []) (h2 : ∀ t ∈ incl, t.isExcl = false)
    (h3 : ∀ t ∈ excls, t.isExcl = true) (num : Nat)
    (hb : ∀ n ∈ termIndices (incl ++ excls), n < num) :
    ∃ A l, cpus_string_to_affinity_list (renderTerms (incl ++ excls)) num = some A ∧
      cpusParser (renderTerms (incl ++ excls)) = some l ∧
      ∀ i : Nat, i < num → (A.getD i '-' = 'y' ↔ (i : Int) ∈ l) :=
  affinity_matches_parserResult incl excls h1 h2 h3 num hb

theorem C2_witness :
    ∃ A l, cpus_string_to_affinity_list
        (renderTerms ([CpuTerm.rng 0 2] ++ [CpuTerm.excl 2])) 3 = some A ∧
      cpusParser (renderTerms ([CpuTerm.rng 0 2] ++ [CpuTerm.excl 2])) = some l ∧
      ∀ i : Nat, i < 3 → (A.getD i '-' = 'y' ↔ (i : Int) ∈ l) :=
  C2_affinity_list_matches_cpusParser [CpuTerm.rng 0 2] [CpuTerm.excl 2]
    (by decide) (by decide) (by decide) 3 (by decide)

/-- C2 counterexample: on the valid string `"^2,0-2"` with `num_cpus = 3`
(strictly above every index occurring), position 2 of the affinity list is
`y` although `2` is not in `cpus_parser`'s result: the affinity function
applies the exclusion first and then re-marks CPU 2, while the parser
subtracts exclusions at the end. -/
theorem C2_counterexample :
    ¬ (((cpus_string_to_affinity_list
          (renderTerms [CpuTerm.excl 2, CpuTerm.rng 0 2]) 3).getD []).getD 2 '-' = 'y' ↔
        (2 : Int) ∈ (cpusParser (renderTerms [CpuTerm.excl 2, CpuTerm.rng 0 2])).getD []) := by
  decide

/-- C9: for every nonempty term string whose CPU indices are all strictly
less than `num_cpus`, `cpus_string_to_affinity_list` returns a list of
exactly `num_cpus` characters, each `y` or `-`; and on the special input
`"r"` it returns `num_cpus` copies of `y`. -/
theorem C9_affinity_list_wellformed :
    (∀ ts : List CpuTerm, ts ≠ [] → ∀ num : Nat,
      (∀ n ∈ termIndices ts, n < num) →
      ∃ A, cpus_string_to_affinity_list (renderTerms ts) num = some A ∧
        A.length = num ∧ ∀ c ∈ A, c = 'y' ∨ c = '-') ∧
    (∀ num : Nat, cpus_string_to_affinity_list ['r'] num =
      some (List.replicate num 'y')) :=
  ⟨fun ts hne num hb => affinity_wellformed ts hne num hb,
    fun _ => rfl⟩

theorem C9_witness :
    (∃ A, cpus_string_to_affinity_list (renderTerms [CpuTerm.num 1]) 2 = some A ∧
      A.length = 2 ∧ ∀ c ∈ A, c = 'y' ∨ c = '-') ∧
    cpus_string_to_affinity_list ['r'] 3 = some (List.replicate 3 'y') :=
  ⟨C9_affinity_list_wellformed.1 [CpuTerm.num 1] (by decide) 2 (by decide),
    C9_affinity_list_wellformed.2 3⟩

/-! ## `MigrationTest` (lines 1198-1456)

Thread interleaving is modelled by the outcome each migration thread has
produced by the time `do_migration` joins it: a thread that finished before
its join timeout has applied its effects (`finished = true`), one still
alive has not.  Every mutation of the shared fields is also recorded in an
event trace so that lock discipline is visible. -/

inductive MigEv
  | acq
  | rel
  | setRET (b : Bool)
  | setTime (vm : PyStr) (t : Int)
deriving DecidableEq

/-- The shared fields of a `MigrationTest` instance: `RET_MIGRATION`
(set to `True` in `__init__`), `mig_time` (a dict), and the event trace. -/
structure MigState where
  ret_migration : Bool
  mig_time : List (PyStr × Int)
  trace : List MigEv
deriving DecidableEq

/-- The state `__init__` builds: `RET_MIGRATION = True`, empty `mig_time`. -/
def initMigState : MigState := ⟨true, [], []⟩

/-- Python dict assignment `d[k] = v`. -/
def dictSet : List (PyStr × Int) → PyStr → Int → List (PyStr × Int)
  | [], k, v => [(k, v)]
  | (k0, v0) :: d, k, v =>
    if k0 = k then (k0, v) :: d else (k0, v0) :: dictSet d k v

/-- Python dict lookup. -/
def dictGet : List (PyStr × Int) → PyStr → Option Int
  | [], _ => none
  | (k0, v0) :: d, k => if k0 = k then some v0 else dictGet d k

/-- What `vm.migrate(...)` did: raised a `CmdError`, or returned a result
with the given exit status between the two `int(time.time())` samples. -/
inductive MigOutcome
  | cmdError
  | completed (exit_status stime etime : Int)
deriving DecidableEq

/-- Does the outcome describe a migration that completed with exit 0? -/
def MigOutcome.success : MigOutcome → Prop
  | .completed e _ _ => e = 0
  | .cmdError => False

/-- `RET_LOCK.acquire(); RET_MIGRATION = False; RET_LOCK.release()`. -/
def setRetFalse (st : MigState) : MigState :=
  { st with ret_migration := false,
            trace := st.trace ++ [.acq, .setRET false, .rel] }

/-- `MigrationTest.thread_func_migration` (lines 1264-1302): on a normal
return the elapsed seconds are stored in `mig_time[vm.name]` and a nonzero
exit status marks the run failed; a `CmdError` marks it failed without
touching `mig_time`; the `finally` block then clears `RET_MIGRATION` under
the lock if the run failed. -/
def thread_func_migration (st : MigState) (vmname : PyStr) (o : MigOutcome) :
    MigState :=
  match o with
  | .cmdError => setRetFalse st
  | .completed e stime etime =>
    let st1 := { st with
      mig_time := dictSet st.mig_time vmname (etime - stime),
      trace := st.trace ++ [.setTime vmname (etime - stime)] }
    if e ≠ 0 then setRetFalse st1 else st1

/-- One spawned thread as `do_migration` observes it: the outcome of its
`thread_func_migration` call, and whether it finished before its join
timeout (`isAlive()` returned `False`). -/
structure ThreadRun where
  outcome : MigOutcome
  finished : Bool
deriving DecidableEq

/-- A run that completed with exit 0 within its timeout. -/
def ThreadRun.success (r : ThreadRun) : Prop :=
  r.finished = true ∧ r.outcome.success

/-- One `start`/`join`/`isAlive` round of the `orderly` and `simultaneous`
branches: a finished thread has applied its effects; a thread still alive
has not, and `do_migration` clears the flag under the lock. -/
def join_step (st : MigState) (vm : PyStr) (r : ThreadRun) : MigState :=
  let st1 := if r.finished then thread_func_migration st vm r.outcome else st
  if !r.finished then setRetFalse st1 else st1

/-- One iteration of the `cross` loop (lines 1419-1433): thread1 migrates
the current `vm_remote` back, thread2 migrates `vm`; both are joined, but
the aliveness test of the source reads `thread1.isAlive() or
thread1.isAlive()` — thread2 is never checked.  The iteration ends with
`vm_remote = vm`. -/
def cross_step (p : MigState × PyStr) (vr : PyStr × ThreadRun × ThreadRun) :
    MigState × PyStr :=
  let st1 := if vr.2.1.finished then thread_func_migration p.1 p.2 vr.2.1.outcome else p.1
  let st2 := if vr.2.2.finished then thread_func_migration st1 vr.1 vr.2.2.outcome else st1
  let st3 := if !vr.2.1.finished || !vr.2.1.finished then setRetFalse st2 else st2
  (st3, vr.1)

/-- The behaviour of the threads spawned by one `do_migration` call: one
run per vm for `orderly` and `simultaneous`; for `cross`, the initial
synchronous `thread_func_migration(vm_remote, desturi)` call followed by a
pair of runs per remaining vm. -/
inductive MigScript
  | orderly (runs : List ThreadRun)
  | cross (first : MigOutcome) (runs : List (ThreadRun × ThreadRun))
  | simultaneous (runs : List ThreadRun)

/-- What `MigrationTest.do_migration` left behind: the shared state, the
caller's `vms` list after the call, and whether `TestFail` was raised. -/
structure DoMigrationResult where
  state : MigState
  vms_out : List PyStr
  raised : Bool
deriving DecidableEq

/-- `MigrationTest.do_migration` (lines 1357-1456).  `none` models a
non-`TestFail` exception: `vms.pop()` on an empty list raises `IndexError`
in the `cross` branch.  Lines 1455-1456 raise `TestFail` exactly when
`RET_MIGRATION` is false and `ignore_status` is false. -/
def do_migration (st : MigState) (vms : List PyStr) (script : MigScript)
    (ignore_status : Bool) : Option DoMigrationResult :=
  let run : Option (MigState × List PyStr) :=
    match script with
    | .orderly runs =>
      some ((vms.zip runs).foldl (fun s p => join_step s p.1 p.2) st, vms)
    | .simultaneous runs =>
      some ((vms.zip runs).foldl (fun s p => join_step s p.1 p.2) st, vms)
    | .cross first runs =>
      match vms.getLast? with
      | none => none
      | some vm_remote0 =>
        let st0 := thread_func_migration st vm_remote0 first
        let q := (vms.dropLast.zip runs).foldl cross_step (st0, vm_remote0)
        some (q.1, vms.dropLast ++ [q.2])
  match run with
  | none => none
  | some (stF, vmsF) =>
    some { state := stF, vms_out := vmsF,
           raised := !stF.ret_migration && !ignore_status }

/-- Whether the call runs to its final flag check without a non-`TestFail`
exception: only `cross` on an empty `vms` list does not. -/
def scriptCompletes (vms : List PyStr) : MigScript → Prop
  | .cross _ _ => vms ≠ []
  | _ => True

/-- Every migration the script describes completed with exit 0 within its
timeout. -/
def MigScript.allSuccess : MigScript → Prop
  | .orderly runs => ∀ r ∈ runs, r.success
  | .simultaneous runs => ∀ r ∈ runs, r.success
  | .cross first runs => first.success ∧ ∀ p ∈ runs, p.1.success ∧ p.2.success

/-- Is every `setRET` event of the list issued while the lock is held? -/
def retWritesLockedAux : List MigEv → Nat → Bool
  | [], _ => true
  | .acq :: es, d => retWritesLockedAux es (d + 1)
  | .rel :: es, d => retWritesLockedAux es (d - 1)
  | .setRET _ :: es, d => decide (0 < d) && retWritesLockedAux es d
  | .setTime _ _ :: es, d => retWritesLockedAux es d

def retWritesLocked (tr : List MigEv) : Bool := retWritesLockedAux tr 0

theorem dictGet_dictSet (d : List (PyStr × Int)) (k : PyStr) (v : Int) :
    dictGet (dictSet d k v) k = some v := by
  induction d with
  | nil => simp [dictSet, dictGet]
  | cons p d ih =>
    by_cases h : p.1 = k
    · simp [dictSet, dictGet, h]
    · simp [dictSet, dictGet, h, ih]

theorem thread_ret_of_success {st : MigState} {vm : PyStr} {o : MigOutcome}
    (h : o.success) :
    (thread_func_migration st vm o).ret_migration = st.ret_migration := by
  cases o with
  | cmdError => exact absurd h (by simp [MigOutcome.success])
  | completed e s t =>
    have he : e = 0 := h
    subst he
    simp [thread_func_migration]

theorem join_ret_of_success {st : MigState} {vm : PyStr} {r : ThreadRun}
    (h : r.success) :
    (join_step st vm r).ret_migration = st.ret_migration := by
  obtain ⟨hf, ho⟩ := h
  simp [join_step, hf, thread_ret_of_success ho]

theorem foldl_join_ret {l : List (PyStr × ThreadRun)} (h : ∀ p ∈ l, p.2.success) :
    ∀ st : MigState,
      (l.foldl (fun s p => join_step s p.1 p.2) st).ret_migration =
        st.ret_migration := by
  induction l with
  | nil => intro st; rfl
  | cons p l ih =>
    intro st
    rw [List.foldl_cons, ih (fun q hq => h q (List.mem_cons_of_mem p hq)),
      join_ret_of_success (h p (by simp))]

theorem cross_ret_of_success {p : MigState × PyStr} {vr : PyStr × ThreadRun × ThreadRun}
    (h1 : vr.2.1.success) (h2 : vr.2.2.success) :
    (cross_step p vr).1.ret_migration = p.1.ret_migration := by
  obtain ⟨hf1, ho1⟩ := h1
  obtain ⟨hf2, ho2⟩ := h2
  simp [cross_step, hf1, hf2, thread_ret_of_success ho1, thread_ret_of_success ho2]

theorem foldl_cross_ret {l : List (PyStr × ThreadRun × ThreadRun)}
    (h : ∀ q ∈ l, q.2.1.success ∧ q.2.2.success) :
    ∀ p : MigState × PyStr,
      ((l.foldl cross_step p).1).ret_migration = p.1.ret_migration := by
  induction l with
  | nil => intro p; rfl
  | cons q l ih =>
    intro p
    rw [List.foldl_cons, ih (fun q2 hq => h q2 (List.mem_cons_of_mem q hq)),
      cross_ret_of_success (h q (by simp)).1 (h q (by simp)).2]

/-! ## Claims C4, C5, C6, C10 -/

/-- C5: `do_migration` raises `TestFail` if and only if, after the per-type
migration work, `RET_MIGRATION` is false and `ignore_status` is false; and
when every migration completed successfully within its timeout and the flag
was true on entry, the call returns normally. -/
theorem C5_do_migration_raises_iff (st : MigState) (vms : List PyStr)
    (script : MigScript) (ig : Bool) :
    (∀ res, do_migration st vms script ig = some res →
      (res.raised = true ↔ res.state.ret_migration = false ∧ ig = false)) ∧
    (st.ret_migration = true → script.allSuccess → scriptCompletes vms script →
      ∃ res, do_migration st vms script ig = some res ∧ res.raised = false) := by
  constructor
  · intro res h
    cases script with
    | orderly runs =>
      simp only [do_migration, Option.some.injEq] at h
      subst h
      simp [Bool.and_eq_true, Bool.not_eq_true']
    | simultaneous runs =>
      simp only [do_migration, Option.some.injEq] at h
      subst h
      simp [Bool.and_eq_true, Bool.not_eq_true']
    | cross first runs =>
      cases hlast : vms.getLast? with
      | none => simp [do_migration, hlast] at h
      | some vm0 =>
        simp only [do_migration, hlast, Option.some.injEq] at h
        subst h
        simp [Bool.and_eq_true, Bool.not_eq_true']
  · intro hflag hsucc hcompl
    cases script with
    | orderly runs =>
      have hz : ∀ p ∈ vms.zip runs, ThreadRun.success p.2 := fun p hp =>
        hsucc p.2 (List.of_mem_zip hp).2
      refine ⟨_, rfl, ?_⟩
      simp only [foldl_join_ret hz st, hflag]
      rfl
    | simultaneous runs =>
      have hz : ∀ p ∈ vms.zip runs, ThreadRun.success p.2 := fun p hp =>
        hsucc p.2 (List.of_mem_zip hp).2
      refine ⟨_, rfl, ?_⟩
      simp only [foldl_join_ret hz st, hflag]
      rfl
    | cross first runs =>
      obtain ⟨hfirst, hruns⟩ := hsucc
      have hne : vms ≠ [] := hcompl
      cases hlast : vms.getLast? with
      | none => exact absurd (List.getLast?_eq_none_iff.mp hlast) hne
      | some vm0 =>
        have hz : ∀ q ∈ vms.dropLast.zip runs,
            ThreadRun.success q.2.1 ∧ ThreadRun.success q.2.2 := fun q hq =>
          hruns q.2 (List.of_mem_zip hq).2
        have hdo : do_migration st vms (MigScript.cross first runs) ig =
            some { state :=
                     ((vms.dropLast.zip runs).foldl cross_step
                       (thread_func_migration st vm0 first, vm0)).1,
                   vms_out :=
                     vms.dropLast ++
                       [((vms.dropLast.zip runs).foldl cross_step
                         (thread_func_migration st vm0 first, vm0)).2],
                   raised :=
                     !((vms.dropLast.zip runs).foldl cross_step
                       (thread_func_migration st vm0 first, vm0)).1.ret_migration &&
                       !ig } := by
          simp only [do_migration, hlast]
        refine ⟨_, hdo, ?_⟩
        show (!((vms.dropLast.zip runs).foldl cross_step
            (thread_func_migration st vm0 first, vm0)).1.ret_migration && !ig) = false
        rw [foldl_cross_ret hz, thread_ret_of_success hfirst, hflag]
        rfl

theorem C5_witness :
    initMigState.ret_migration = true ∧
    (MigScript.orderly [⟨MigOutcome.completed 0 0 5, true⟩]).allSuccess ∧
    scriptCompletes [['a']] (MigScript.orderly [⟨MigOutcome.completed 0 0 5, true⟩]) ∧
    ∃ res, do_migration initMigState [['a']]
        (MigScript.orderly [⟨MigOutcome.completed 0 0 5, true⟩]) false = some res ∧
      res.raised = false :=
  ⟨rfl,
    by
      intro r hr
      simp only [List.mem_singleton] at hr
      subst hr
      exact ⟨rfl, rfl⟩,
    trivial,
    (C5_do_migration_raises_iff initMigState [['a']]
        (MigScript.orderly [⟨MigOutcome.completed 0 0 5, true⟩]) false).2 rfl
      (by
        intro r hr
        simp only [List.mem_singleton] at hr
        subst hr
        exact ⟨rfl, rfl⟩)
      trivial⟩

/-- C6: `thread_func_migration` on a `CmdError` clears `RET_MIGRATION`
under `RET_LOCK` and leaves `mig_time` unchanged; on a completed command it
always records the elapsed whole seconds under the vm's name, and on a
nonzero exit status it additionally clears the flag under the lock. -/
theorem C6_thread_func_migration (st : MigState) (vm : PyStr) (o : MigOutcome) :
    (o = MigOutcome.cmdError →
      (thread_func_migration st vm o).ret_migration = false ∧
      (thread_func_migration st vm o).mig_time = st.mig_time ∧
      (thread_func_migration st vm o).trace =
        st.trace ++ [MigEv.acq, MigEv.setRET false, MigEv.rel] ∧
      retWritesLocked [MigEv.acq, MigEv.setRET false, MigEv.rel] = true) ∧
    (∀ e s t, o = MigOutcome.completed e s t →
      dictGet (thread_func_migration st vm o).mig_time vm = some (t - s)) ∧
    (∀ e s t, o = MigOutcome.completed e s t → e ≠ 0 →
      (thread_func_migration st vm o).ret_migration = false ∧
      (thread_func_migration st vm o).trace =
        st.trace ++ [MigEv.setTime vm (t - s), MigEv.acq, MigEv.setRET false,
          MigEv.rel] ∧
      retWritesLocked [MigEv.setTime vm (t - s), MigEv.acq, MigEv.setRET false,
        MigEv.rel] = true) := by
  refine ⟨?_, ?_, ?_⟩
  · rintro rfl
    refine ⟨rfl, rfl, ?_, rfl⟩
    simp [thread_func_migration, setRetFalse]
  · rintro e s t rfl
    by_cases he : e = 0
    · subst he
      simp only [thread_func_migration, if_neg (by omega : ¬ (0 : Int) ≠ 0)]
      exact dictGet_dictSet st.mig_time vm (t - s)
    · simp only [thread_func_migration, if_pos he, setRetFalse]
      exact dictGet_dictSet st.mig_time vm (t - s)
  · rintro e s t rfl he
    simp only [thread_func_migration, if_pos he, setRetFalse]
    refine ⟨?_, ?_, ?_⟩
    · trivial
    · simp [List.append_assoc]
    · rfl

theorem C6_witness :
    (thread_func_migration initMigState ['a'] MigOutcome.cmdError).ret_migration
        = false ∧
    (thread_func_migration initMigState ['a'] MigOutcome.cmdError).mig_time =
      initMigState.mig_time ∧
    (thread_func_migration initMigState ['a'] MigOutcome.cmdError).trace =
      initMigState.trace ++ [MigEv.acq, MigEv.setRET false, MigEv.rel] ∧
    retWritesLocked [MigEv.acq, MigEv.setRET false, MigEv.rel] = true :=
  (C6_thread_func_migration initMigState ['a'] MigOutcome.cmdError).1 rfl

/-- C4: a concrete `cross` migration in which thread2 is still alive after
its join timeout while thread1 finished: `RET_MIGRATION` stays `True` and
no `TestFail` is raised, because line 1429 tests `thread1.isAlive() or
thread1.isAlive()` and never consults thread2. -/
theorem C4_cross_alive_thread2_not_flagged :
    (do_migration initMigState [['v', '0'], ['v', '1']]
        (MigScript.cross (MigOutcome.completed 0 0 5)
          [(⟨MigOutcome.completed 0 0 5, true⟩, ⟨MigOutcome.completed 0 0 5, false⟩)])
        false).map (fun r => (r.state.ret_migration, r.raised)) =
      some (true, false) := by
  decide

/-- C10: a concrete `cross` migration over `[vm0, vm1]`: after the call the
caller's list is `[vm0, vm0]`, not the original `[vm0, vm1]` — the loop
reassigns `vm_remote = vm` before line 1435 appends it, so the popped vm
is not the one put back. -/
theorem C10_cross_vms_not_restored :
    (do_migration initMigState [['v', '0'], ['v', '1']]
        (MigScript.cross (MigOutcome.completed 0 0 5)
          [(⟨MigOutcome.completed 0 0 5, true⟩, ⟨MigOutcome.completed 0 0 5, true⟩)])
        false).map (fun r => r.vms_out) = some [['v', '0'], ['v', '0']] := by
  decide

/-! ## Interactive shell automation (lines 2841-2996, 3079-3101)

A pseudo-terminal session is modelled by the sequence of outcomes of its
successive `read_until_any_line_matches` calls: either a match index or a
raised `ShellError`/`ExpectError`.  An exhausted sequence stands for a read
that blocks until the timeout, which also raises `ExpectError`.  The match
index is the value the source compares against: the negative position of
the matched pattern in `match_list` (so `-L` is the first pattern of a list
of length `L`). -/

inductive ReadEv
  | matched (m : Int)
  | fail
deriving DecidableEq

inductive ConnResult
  | ret (ok : Bool)
  | exn
deriving DecidableEq

/-- What a shell-automation function did: the replies it sent, whether it
closed the session, and its outcome (`exn` = an exception it did not
catch escaped, without closing the session). -/
structure ConnOutput where
  sent : List PyStr
  closed : Bool
  result : ConnResult
deriving DecidableEq

/-- Python list indexing `l[i]`: negative indices count from the end, an
out-of-range index raises `IndexError` (`none`). -/
def pyIdx {α : Type} (l : List α) (i : Int) : Option α :=
  let j := if i < 0 then i + l.length else i
  if h : 0 ≤ j ∧ j < (l.length : Int) then some (l.get ⟨j.toNat, by omega⟩)
  else none

/-- Python `dict.get(key, "")` over an association list in key order. -/
def dictGetD (d : List (PyStr × PyStr)) (k : PyStr) : PyStr :=
  match d with
  | [] => []
  | (k0, v0) :: rest => if k0 = k then v0 else dictGetD rest k

/-- The line `"yes"`. -/
def yesLine : PyStr := ['y', 'e', 's']

inductive ConnStep
  | send (reply : PyStr)
  | stop (ok : Bool)
  | err
deriving DecidableEq

/-- The prompt dispatch of one iteration of the `connect_libvirtd` read
loop (lines 2892-2917), `match_list` being the five fixed patterns followed
by the keys of `patterns_extra_dict` (its length is `L = 5 + len(extras)`):
index `-L` is the yes/no prompt, `-L+1` and `-L+2` the two username
prompts, `-L+3` the password prompt, `-L+4` the expected virsh output;
with a nonempty extra dict any other index is looked up in the keys list at
`match + len(extras)` (an out-of-range index raises `IndexError`), else the
unmatched prompt is logged and the loop breaks. -/
def connect_step (extras : List (PyStr × PyStr)) (auth_user auth_pwd : PyStr)
    (m : Int) : ConnStep :=
  let L : Int := 5 + extras.length
  if m = -L then .send yesLine
  else if m = -L + 1 ∨ m = -L + 2 then .send auth_user
  else if m = -L + 3 then .send auth_pwd
  else if m = -L + 4 then .stop true
  else if 5 + extras.length > 5 then
    match pyIdx (extras.map Prod.fst) (m + extras.length) with
    | some key => .send (dictGetD extras key)
    | none => .err
  else .stop true

/-- `connect_libvirtd` (lines 2841-2925) as a function of the session's
read outcomes: replies are sent until the loop breaks (returning `True`
after closing the session), a `ShellError`/`ExpectError` is caught and
turned into `False` after closing the session, and an `IndexError` from
the extra-pattern lookup escapes without closing the session. -/
def connect_libvirtd (extras : List (PyStr × PyStr)) (auth_user auth_pwd : PyStr) :
    List ReadEv → ConnOutput
  | [] => ⟨[], true, .ret false⟩
  | .fail :: _ => ⟨[], true, .ret false⟩
  | .matched m :: rest =>
    match connect_step extras auth_user auth_pwd m with
    | .send r =>
      let o := connect_libvirtd extras auth_user auth_pwd rest
      ⟨r :: o.sent, o.closed, o.result⟩
    | .stop ok => ⟨[], true, .ret ok⟩
    | .err => ⟨[], false, .exn⟩

/-- Whether the execution of `connect_libvirtd` over this read sequence
runs into a `ShellError`/`ExpectError` (including the timeout of an
exhausted sequence) before the loop breaks. -/
def connect_reaches_fail (extras : List (PyStr × PyStr))
    (auth_user auth_pwd : PyStr) : List ReadEv → Bool
  | [] => true
  | .fail :: _ => true
  | .matched m :: rest =>
    match connect_step extras auth_user auth_pwd m with
    | .send _ => connect_reaches_fail extras auth_user auth_pwd rest
    | .stop _ => false
    | .err => false

/-- What the module-level `do_migration` did; its result is the pair the
function returns, `log` being `session.get_output()`. -/
structure MdmOutput where
  sent : List PyStr
  closed : Bool
  result : Bool × PyStr
deriving DecidableEq

/-- The module-level `do_migration` (lines 2945-2996): `match_list` holds
four patterns, so `-4` is the yes/no prompt, `-3` the username prompt,
`-2` the password prompt and `-1` the expected virsh output; any other
match index logs the prompt and breaks, the function then returning
`(True, log)`; a `ShellError`/`ExpectError` yields `(False, log)`, in every
case after closing the session. -/
def do_migration_module (auth_user auth_pwd log : PyStr) :
    List ReadEv → MdmOutput
  | [] => ⟨[], true, (false, log)⟩
  | .fail :: _ => ⟨[], true, (false, log)⟩
  | .matched m :: rest =>
    if m = -4 then
      let o := do_migration_module auth_user auth_pwd log rest
      ⟨yesLine :: o.sent, o.closed, o.result⟩
    else if m = -3 then
      let o := do_migration_module auth_user auth_pwd log rest
      ⟨auth_user :: o.sent, o.closed, o.result⟩
    else if m = -2 then
      let o := do_migration_module auth_user auth_pwd log rest
      ⟨auth_pwd :: o.sent, o.closed, o.result⟩
    else if m = -1 then ⟨[], true, (true, log)⟩
    else ⟨[], true, (true, log)⟩

def mdm_reaches_fail : List ReadEv → Bool
  | [] => true
  | .fail :: _ => true
  | .matched m :: rest =>
    if m = -4 ∨ m = -3 ∨ m = -2 then mdm_reaches_fail rest else false

structure EditOutput where
  sent : List PyStr
  closed : Bool
  result : Bool
deriving DecidableEq

/-- `exec_virsh_edit` (lines 3079-3101): it sends the `virsh edit` command
line, each edit command, the escape character and `ZZ`, then waits for the
shell prompt via `remote.handle_prompts`; `prompts_fail` says whether that
wait raised.  Any exception is caught, the session closed and `False`
returned; otherwise the session is closed and `True` returned. -/
def exec_virsh_edit (edit_cmd : List PyStr) (connect_line esc zz : PyStr)
    (prompts_fail : Bool) : EditOutput :=
  if prompts_fail then
    { sent := connect_line :: edit_cmd ++ [esc, zz], closed := true, result := false }
  else
    { sent := connect_line :: edit_cmd ++ [esc, zz], closed := true, result := true }

theorem pyIdx_natCast {α : Type} (l : List α) (j : Nat) (hj : j < l.length) :
    pyIdx l (j : Int) = some (l.get ⟨j, hj⟩) := by
  simp only [pyIdx, if_neg (show ¬ ((j : Int) < 0) by omega),
    dif_pos (show (0 ≤ (j : Int)) ∧ (j : Int) < (l.length : Int) from ⟨by omega, by omega⟩),
    Int.toNat_natCast]

theorem dictGetD_get (extras : List (PyStr × PyStr))
    (hnd : (extras.map Prod.fst).Nodup) (j : Nat) (hj : j < extras.length) :
    dictGetD extras (extras.get ⟨j, hj⟩).1 = (extras.get ⟨j, hj⟩).2 := by
  induction extras generalizing j with
  | nil => simp at hj
  | cons q rest ih =>
    cases j with
    | zero => simp [dictGetD]
    | succ k =>
      have hk : k < rest.length := by simpa using hj
      rw [List.map_cons, List.nodup_cons] at hnd
      have hmem : (rest.get ⟨k, hk⟩).1 ∈ rest.map Prod.fst :=
        List.mem_map_of_mem Prod.fst (rest.get_mem k hk)
      have hne : ¬ (q.1 = (rest.get ⟨k, hk⟩).1) := fun he => hnd.1 (he ▸ hmem)
      have hg : ((q :: rest).get ⟨k + 1, hj⟩) = rest.get ⟨k, hk⟩ := rfl
      rw [hg, dictGetD, if_neg hne, ih hnd.2 k hk]

theorem connect_step_yes (extras : List (PyStr × PyStr)) (u p : PyStr) :
    connect_step extras u p (-(5 + (extras.length : Int))) = ConnStep.send yesLine := by
  simp [connect_step]

theorem connect_step_user1 (extras : List (PyStr × PyStr)) (u p : PyStr) :
    connect_step extras u p (-(5 + (extras.length : Int)) + 1) = ConnStep.send u := by
  simp only [connect_step]
  rw [if_neg (by omega), if_pos (Or.inl trivial)]

theorem connect_step_user2 (extras : List (PyStr × PyStr)) (u p : PyStr) :
    connect_step extras u p (-(5 + (extras.length : Int)) + 2) = ConnStep.send u := by
  simp only [connect_step]
  rw [if_neg (by omega), if_pos (Or.inr trivial)]

theorem connect_step_pwd (extras : List (PyStr × PyStr)) (u p : PyStr) :
    connect_step extras u p (-(5 + (extras.length : Int)) + 3) = ConnStep.send p := by
  simp only [connect_step]
  rw [if_neg (by omega), if_neg (by omega), if_pos trivial]

theorem connect_step_virsh (extras : List (PyStr × PyStr)) (u p : PyStr) :
    connect_step extras u p (-(5 + (extras.length : Int)) + 4) = ConnStep.stop true := by
  simp only [connect_step]
  rw [if_neg (by omega), if_neg (by omega), if_neg (by omega), if_pos trivial]

theorem connect_step_extra (extras : List (PyStr × PyStr)) (u p : PyStr)
    (j : Nat) (hj : j < extras.length) (hnd : (extras.map Prod.fst).Nodup) :
    connect_step extras u p ((j : Int) - extras.length) =
      ConnStep.send (extras.get ⟨j, hj⟩).2 := by
  have hfix : ((j : Int) - extras.length) + extras.length = (j : Int) := by omega
  have hkey : pyIdx (extras.map Prod.fst) ((j : Int)) =
      some (extras.get ⟨j, hj⟩).1 := by
    rw [pyIdx_natCast (extras.map Prod.fst) j (by simpa using hj)]
    congr 1
    simp [List.get_eq_getElem, List.getElem_map]
  simp only [connect_step]
  rw [if_neg (by omega), if_neg (by omega), if_neg (by omega), if_neg (by omega),
    if_pos (by omega), hfix, hkey]
  show ConnStep.send (dictGetD extras (extras.get ⟨j, hj⟩).1) = _
  rw [dictGetD_get extras hnd j hj]

/-- C7: each iteration of the `connect_libvirtd` read loop is a fixed
prompt-to-reply dispatch: the yes/no prompt (index `-L`) sends `yes` and
continues, either username prompt (`-L+1`, `-L+2`) sends `auth_user` and
continues, the password prompt (`-L+3`) sends `auth_pwd` and continues, a
key of `patterns_extra_dict` (pattern index `5+j`, i.e. match `j - E`)
sends that key's value and continues, and the expected virsh-output
pattern (`-L+4`) ends the loop with the function returning `True`. -/
theorem C7_connect_libvirtd_dispatch (extras : List (PyStr × PyStr))
    (u p : PyStr) (rest : List ReadEv) :
    (connect_libvirtd extras u p
        (ReadEv.matched (-(5 + (extras.length : Int))) :: rest) =
      { sent := yesLine :: (connect_libvirtd extras u p rest).sent,
        closed := (connect_libvirtd extras u p rest).closed,
        result := (connect_libvirtd extras u p rest).result }) ∧
    (connect_libvirtd extras u p
        (ReadEv.matched (-(5 + (extras.length : Int)) + 1) :: rest) =
      { sent := u :: (connect_libvirtd extras u p rest).sent,
        closed := (connect_libvirtd extras u p rest).closed,
        result := (connect_libvirtd extras u p rest).result }) ∧
    (connect_libvirtd extras u p
        (ReadEv.matched (-(5 + (extras.length : Int)) + 2) :: rest) =
      { sent := u :: (connect_libvirtd extras u p rest).sent,
        closed := (connect_libvirtd extras u p rest).closed,
        result := (connect_libvirtd extras u p rest).result }) ∧
    (connect_libvirtd extras u p
        (ReadEv.matched (-(5 + (extras.length : Int)) + 3) :: rest) =
      { sent := p :: (connect_libvirtd extras u p rest).sent,
        closed := (connect_libvirtd extras u p rest).closed,
        result := (connect_libvirtd extras u p rest).result }) ∧
    (connect_libvirtd extras u p
        (ReadEv.matched (-(5 + (extras.length : Int)) + 4) :: rest) =
      { sent := [], closed := true, result := ConnResult.ret true }) ∧
    (∀ (j : Nat) (hj : j < extras.length), (extras.map Prod.fst).Nodup →
      connect_libvirtd extras u p
          (ReadEv.matched ((j : Int) - extras.length) :: rest) =
        { sent := (extras.get ⟨j, hj⟩).2 :: (connect_libvirtd extras u p rest).sent,
          closed := (connect_libvirtd extras u p rest).closed,
          result := (connect_libvirtd extras u p rest).result }) := by
  refine ⟨?_, ?_, ?_, ?_, ?_, ?_⟩
  · simp only [connect_libvirtd, connect_step_yes]
  · simp only [connect_libvirtd, connect_step_user1]
  · simp only [connect_libvirtd, connect_step_user2]
  · simp only [connect_libvirtd, connect_step_pwd]
  · simp only [connect_libvirtd, connect_step_virsh]
  · intro j hj hnd
    simp only [connect_libvirtd, connect_step_extra extras u p j hj hnd]

theorem C7_witness :
    connect_libvirtd [(['k'], ['v'])] ['u'] ['p']
        [ReadEv.matched ((0 : Int) - ([(['k'], ['v'])] :
          List (PyStr × PyStr)).length)] =
      { sent := [(([(['k'], ['v'])] : List (PyStr × PyStr)).get ⟨0, by decide⟩).2],
        closed := true, result := ConnResult.ret false } := by
  have h := (C7_connect_libvirtd_dispatch [(['k'], ['v'])] ['u'] ['p'] []).2.2.2.2.2
    0 (by decide) (by decide)
  simpa using h

/-- C8: the interactive-shell automation functions never propagate session
errors: on a `ShellError`/`ExpectError` `connect_libvirtd` returns `False`
and the module-level `do_migration` returns `(False, log)`, and on an
exception of `handle_prompts` `exec_virsh_edit` returns `False` — each
after closing the shell session. -/
theorem C8_session_errors_not_propagated :
    (∀ (extras : List (PyStr × PyStr)) (u p : PyStr) (script : List ReadEv),
      connect_reaches_fail extras u p script = true →
      (connect_libvirtd extras u p script).result = ConnResult.ret false ∧
      (connect_libvirtd extras u p script).closed = true) ∧
    (∀ (u p log : PyStr) (script : List ReadEv),
      mdm_reaches_fail script = true →
      (do_migration_module u p log script).result = (false, log) ∧
      (do_migration_module u p log script).closed = true) ∧
    (∀ (edit_cmd : List PyStr) (connect_line esc zz : PyStr),
      (exec_virsh_edit edit_cmd connect_line esc zz true).result = false ∧
      (exec_virsh_edit edit_cmd connect_line esc zz true).closed = true) := by
  refine ⟨?_, ?_, ?_⟩
  · intro extras u p script
    induction script with
    | nil => intro _; exact ⟨rfl, rfl⟩
    | cons ev rest ih =>
      intro h
      cases ev with
      | fail => exact ⟨rfl, rfl⟩
      | matched m =>
        cases hstep : connect_step extras u p m with
        | send r =>
          have h2 : connect_reaches_fail extras u p rest = true := by
            rw [connect_reaches_fail, hstep] at h
            exact h
          obtain ⟨hr, hc⟩ := ih h2
          constructor
          · simp only [connect_libvirtd, hstep]
            exact hr
          · simp only [connect_libvirtd, hstep]
            exact hc
        | stop ok =>
          rw [connect_reaches_fail, hstep] at h
          exact Bool.noConfusion h
        | err =>
          rw [connect_reaches_fail, hstep] at h
          exact Bool.noConfusion h
  · intro u p log script
    induction script with
    | nil => intro _; exact ⟨rfl, rfl⟩
    | cons ev rest ih =>
      intro h
      cases ev with
      | fail => exact ⟨rfl, rfl⟩
      | matched m =>
        by_cases hm : m = -4 ∨ m = -3 ∨ m = -2
        · have h2 : mdm_reaches_fail rest = true := by
            rw [mdm_reaches_fail, if_pos hm] at h
            exact h
          obtain ⟨hr, hc⟩ := ih h2
          rcases hm with hm | hm | hm
          · subst hm
            constructor
            · simp only [do_migration_module, if_pos rfl]
              exact hr
            · simp only [do_migration_module, if_pos rfl]
              exact hc
          · subst hm
            constructor
            · simp only [do_migration_module,
                if_neg (show ¬ ((-3 : Int) = -4) by decide), if_pos rfl]
              exact hr
            · simp only [do_migration_module,
                if_neg (show ¬ ((-3 : Int) = -4) by decide), if_pos rfl]
              exact hc
          · subst hm
            constructor
            · simp only [do_migration_module,
                if_neg (show ¬ ((-2 : Int) = -4) by decide),
                if_neg (show ¬ ((-2 : Int) = -3) by decide), if_pos rfl]
              exact hr
            · simp only [do_migration_module,
                if_neg (show ¬ ((-2 : Int) = -4) by decide),
                if_neg (show ¬ ((-2 : Int) = -3) by decide), if_pos rfl]
              exact hc
        · rw [mdm_reaches_fail, if_neg hm] at h
          exact Bool.noConfusion h
  · intro edit_cmd connect_line esc zz
    exact ⟨rfl, rfl⟩

theorem C8_witness :
    ((connect_libvirtd [] ['u'] ['p'] [ReadEv.fail]).result = ConnResult.ret false ∧
      (connect_libvirtd [] ['u'] ['p'] [ReadEv.fail]).closed = true) ∧
    ((do_migration_module ['u'] ['p'] ['l'] [ReadEv.fail]).result = (false, ['l']) ∧
      (do_migration_module ['u'] ['p'] ['l'] [ReadEv.fail]).closed = true) ∧
    ((exec_virsh_edit [] ['e'] ['c'] ['z'] true).result = false ∧
      (exec_virsh_edit [] ['e'] ['c'] ['z'] true).closed = true) :=
  ⟨C8_session_errors_not_propagated.1 [] ['u'] ['p'] [ReadEv.fail] rfl,
    C8_session_errors_not_propagated.2.1 ['u'] ['p'] ['l'] [ReadEv.fail] rfl,
    C8_session_errors_not_propagated.2.2 [] ['e'] ['c'] ['z']⟩
